import Mathlib

/-!
Verification of the configuration module `src/utils/config.ts` (gluon/melon
build-config loader).  The module is embedded shallowly:

* JSON documents are modelled by the inductive type `JValue`.  Objects are
  association lists in insertion order (JavaScript integer-key reordering is
  not modelled; none of the fields this module touches are integer-like).
  Numbers keep their source lexeme (`num lit`); no float arithmetic is
  performed on them anywhere in the module, only truthiness tests.
* `JSON.parse` / `JSON.stringify(_, null, 2)` are modelled by the executable
  `parseJson` / `stringifyIndent` pair defined below (RFC 8259 grammar;
  duplicate object keys resolve last-wins at first position, as in JS).
  Lone-surrogate escapes decode to U+0000 since Lean `Char` cannot hold them.
* JavaScript dynamics needed by the module are modelled faithfully:
  spread-merge `\x7b...a, ...b\x7d` (`mergeSpread`), truthiness (`truthy`),
  property access returning `undefined` on primitives (`propGet`) and
  throwing TypeError on `null` (the `Outcome.thrown` cases), loose equality
  against the platform literals (`looseEqStr`), and `for..in` key
  enumeration (`forInKeys`).
* Process effects (log.warning, log.error, existsSync, readFileSync,
  process.exit(1)) are events (`Event`) or terminal outcomes (`Outcome`).
  `process.exit(1)` is `Outcome.exitOne`; an uncaught TypeError is
  `Outcome.thrown` (Node also ends the process unsuccessfully on those,
  but through the uncaught-exception path, not the explicit exit call).
* Module state (`hasWarnedAboutConfig`, `mockConfig`) plus the backing file
  is `ProcState`; `rawConfig`, `setMockRawConfig` and `getConfig` are state
  transformers over it.
-/

namespace Gluon

/-- A JSON value: the result of `JSON.parse`.  Objects are association lists
in document order; numbers keep their lexeme. -/
inductive JValue where
  | null
  | jbool (b : Bool)
  | num (lit : String)
  | str (s : String)
  | arr (elems : List JValue)
  | obj (fields : List (String × JValue))
deriving Repr

/-- First-match lookup in an object field list, i.e. JS property read on an
object (fields never repeat a key after `setKey` construction). -/
def lookupKey (fs : List (String × JValue)) (k : String) : Option JValue :=
  match fs with
  | [] => none
  | p :: rest => if p.1 = k then some p.2 else lookupKey rest k

/-- JS property write: overwrite in place if the key exists (keeping its
position), otherwise append.  Both object-literal duplicate keys in
`JSON.parse` and spread-merge overriding behave this way. -/
def setKey (fs : List (String × JValue)) (k : String) (v : JValue) :
    List (String × JValue) :=
  match fs with
  | [] => [(k, v)]
  | p :: rest => if p.1 = k then (k, v) :: rest else p :: setKey rest k v

/-- The own enumerable properties a value contributes when spread into an
object literal: an object gives its fields, a string or array gives its
indexed elements, and every other primitive gives nothing. -/
def contrib : JValue → List (String × JValue)
  | .obj fs => fs
  | .arr xs => xs.enum.map (fun p => (toString p.1, p.2))
  | .str s => s.data.enum.map (fun p => (toString p.1, JValue.str (String.mk [p.2])))
  | _ => []

/-- Spread merge over a base object: `\x7b ...base, ...v \x7d` (line 233 /
line 235 of config.ts). -/
def mergeSpread (base : List (String × JValue)) (v : JValue) :
    List (String × JValue) :=
  (contrib v).foldl (fun acc p => setKey acc p.1 p.2) base

/-- The keys a `for..in` loop visits on a value (line 246): own enumerable
keys of objects, index keys of arrays and strings, nothing on primitives
including null. -/
def forInKeys (v : JValue) : List String := (contrib v).map Prod.fst

/-- JS property read on a value that is not `null`/`undefined`: objects look
the key up, strings and arrays expose their index properties, and other
primitives yield `undefined` (`none`).  Reads on `null` are handled at each
call site, where they throw. -/
def propGet (v : JValue) (k : String) : Option JValue := lookupKey (contrib v) k

/-- Whether a JSON number lexeme denotes zero: no nonzero digit in the
mantissa (the exponent cannot make zero nonzero or vice versa). -/
def numIsZero (lit : String) : Bool :=
  (lit.data.takeWhile (fun c => !(c == 'e' || c == 'E'))).all
    (fun c => c == '-' || c == '0' || c == '.')

/-- JS truthiness of a possibly-undefined value (`!x` tests in config.ts):
`undefined`, `null`, `false`, zero and the empty string are falsy. -/
def truthy : Option JValue → Bool
  | none => false
  | some .null => false
  | some (.jbool b) => b
  | some (.num lit) => !numIsZero lit
  | some (.str s) => !(s == "")
  | some (.arr _) => true
  | some (.obj _) => true

mutual
/-- JS string coercion, as used by template interpolation: arrays join their
elements with commas (null elements become empty), objects print as
"[object Object]".  Number lexemes are kept as written rather than
re-canonicalised (only diagnostic text depends on this). -/
def jsToString : JValue → String
  | .null => "null"
  | .jbool true => "true"
  | .jbool false => "false"
  | .num lit => lit
  | .str s => s
  | .obj _ => "[object Object]"
  | .arr xs => String.intercalate "," (jsArrParts xs)
termination_by v => sizeOf v
/-- The pieces `Array.prototype.join` glues with commas: null elements are
empty, the rest are string-coerced. -/
def jsArrParts : List JValue → List String
  | [] => []
  | .null :: xs => "" :: jsArrParts xs
  | x :: xs => jsToString x :: jsArrParts xs
termination_by xs => sizeOf xs
end

/-- Template interpolation of a possibly-undefined value. -/
def dispOpt : Option JValue → String
  | none => "undefined"
  | some v => jsToString v

/-- JS loose equality `x == lit` against one of the fixed platform strings
"url" / "amo" / "github" (lines 252, 259, 271).  Strings compare directly;
arrays and objects compare through their string coercion (ToPrimitive);
numbers and booleans coerce the non-numeric literal to NaN, hence false;
`undefined` and `null` are not loosely equal to any string. -/
def looseEqStr (o : Option JValue) (t : String) : Bool :=
  match o with
  | some (.str s) => s == t
  | some (.arr xs) => jsToString (.arr xs) == t
  | some (.obj fs) => jsToString (.obj fs) == t
  | _ => false

/-- The five supported products (enum SupportedProducts, lines 18-32). -/
def validProducts : List String :=
  ["firefox", "firefox-esr", "firefox-dev", "firefox-beta", "firefox-nightly"]

/-- The `validProducts.includes(...)` check (line 240): `includes` uses
SameValueZero, so only a string can match the five string constants. -/
def productValid (p : Option JValue) : Bool :=
  match p with
  | some (.str s) => validProducts.contains s
  | _ => false

/-- defaultLicenseConfig (lines 156-159), in declared field order. -/
def defaultLicenseConfig : List (String × JValue) :=
  [("ignoredFiles", .arr [.str ".*\\.json"]),
   ("licenseType", .str "MPL-2.0")]

/-- defaultConfig (lines 161-176), in declared field order. -/
def defaultConfig : List (String × JValue) :=
  [("name", .str "Unknown gluon build"),
   ("vendor", .str "Unknown"),
   ("appId", .str "unknown.appid"),
   ("binaryName", .str "firefox"),
   ("version", .obj [("product", .str "firefox")]),
   ("buildOptions", .obj [("generateBranding", .jbool true),
                          ("windowsUseSymbolicLinks", .jbool false)]),
   ("addons", .obj []),
   ("brands", .obj []),
   ("license", .obj defaultLicenseConfig)]

/-- defaultBrandsConfig (lines 149-154); exported by the module but not used
by the resolution pipeline. -/
def defaultBrandsConfig : List (String × JValue) :=
  [("backgroundColor", .str "#2B2A33"),
   ("brandShorterName", .str "Nightly"),
   ("brandShortName", .str "Nightly"),
   ("brandFullName", .str "Nightly")]

/-- The configuration path (line 14).  The process-working-directory prefix
is environment state outside the model; no claim inspects the path text. -/
def configPath : String := "gluon.json"

/-- Warning text of rawConfig (lines 201-203). -/
def missingConfigWarning : String :=
  "Config file not found at " ++ configPath ++
    ". It is recommended to create one by running |melon setup-project|"

/-- Warning text of the binaryName advisory (lines 227-229). -/
def binaryNameWarning : String :=
  "It is recommended that you provide a \x60binaryName\x60 field in your config file, otherwise packaging may get messed up"

/-- Error text of the parse failure report (line 220). -/
def parseErrorMsg : String :=
  "Error parsing melon config file located at " ++ configPath

/-- Error text for a missing addon property (lines 250, 254, 261, 264, 273,
276, 281). -/
def missingPropMsg (prop addonKey : String) : String :=
  "The \x27" ++ prop ++ "\x27 property was not provided for addon " ++ addonKey

/-- Error text of the invalid-product report (line 241). -/
def invalidProductMsg (p : Option JValue) : String :=
  dispOpt p ++ " is not a valid product"

/-- Error text of the unknown-platform report (lines 288-290). -/
def unknownPlatformMsg (p : Option JValue) : String :=
  "Unknown addon platform " ++ dispOpt p

/-- One observable side effect: a call into the log module, the existence
check, the file read, or the second `log.error(e)` carrying the thrown
SyntaxError object (line 221). -/
inductive Event where
  | checkExists
  | readFile
  | logWarning (msg : String)
  | logError (msg : String)
  | logException
deriving Repr, DecidableEq

/-- How one resolution run ends: returning the merged record, calling
`process.exit(1)`, or dying on an uncaught TypeError.  Each terminal
carries the events emitted before (and including) the end. -/
inductive Outcome where
  | ok (cfg : JValue) (log : List Event)
  | exitOne (log : List Event)
  | thrown (log : List Event)
deriving Repr

/-- Whether the run returned a Config. -/
def Outcome.isOk : Outcome → Bool
  | .ok _ _ => true
  | _ => false

/-- Whether the run called `process.exit(1)`. -/
def Outcome.isExitOne : Outcome → Bool
  | .exitOne _ => true
  | _ => false

/-- Whether the run died on an uncaught TypeError. -/
def Outcome.isThrown : Outcome → Bool
  | .thrown _ => true
  | _ => false

/-- The events a run emitted. -/
def Outcome.logOf : Outcome → List Event
  | .ok _ l => l
  | .exitOne l => l
  | .thrown l => l

/-- The returned Config, if any. -/
def Outcome.config : Outcome → Option JValue
  | .ok c _ => some c
  | _ => none

/-- Prefix earlier events onto a run result. -/
def Outcome.withLog (pre : List Event) : Outcome → Outcome
  | .ok c l => .ok c (pre ++ l)
  | .exitOne l => .exitOne (pre ++ l)
  | .thrown l => .thrown (pre ++ l)

/-- Whether an event is a warning. -/
def Event.isWarning : Event → Bool
  | .logWarning _ => true
  | _ => false

/-- Whether an event is an error report. -/
def Event.isError : Event → Bool
  | .logError _ => true
  | .logException => true
  | _ => false

/-- Field validation of one non-null addon entry (lines 249-290): the `id`
presence check, then the platform dispatch. -/
def checkAddonFields (addonKey : String) (a : JValue) : List Event :=
  let idErr : List Event :=
    if truthy (propGet a "id") then []
    else [.logError (missingPropMsg "id" addonKey)]
  let pf := propGet a "platform"
  if looseEqStr pf "url" then
    idErr ++
      (if truthy (propGet a "url") then []
       else [.logError (missingPropMsg "url" addonKey)])
  else if looseEqStr pf "amo" then
    idErr ++
      (if truthy (propGet a "amoId") then []
       else [.logError (missingPropMsg "amoId" addonKey)]) ++
      (if truthy (propGet a "version") then []
       else [.logError (missingPropMsg "version" addonKey)])
  else if looseEqStr pf "github" then
    idErr ++
      (if truthy (propGet a "repo") then []
       else [.logError (missingPropMsg "repo" addonKey)]) ++
      (if truthy (propGet a "version") then []
       else [.logError (missingPropMsg "version" addonKey)]) ++
      (if truthy (propGet a "fileGlob") then []
       else [.logError (missingPropMsg "fileGlob" addonKey)])
  else
    idErr ++ [.logError (unknownPlatformMsg pf)]

/-- The addon loop (line 246): visit each key, look the entry up, validate
it, and accumulate the error events.  A missing or null entry throws a
TypeError at the `.id` read (line 249); `.error` answers that, carrying the
events already emitted. -/
def checkAddons (av : JValue) : List String → List Event →
    Except (List Event) (List Event)
  | [], acc => .ok acc
  | k :: ks, acc =>
    match propGet av k with
    | none => .error acc
    | some .null => .error acc
    | some addon => checkAddons av ks (acc ++ checkAddonFields k addon)

/-- The top-level default merge (line 233). -/
def mergedTop (fileParsed : JValue) : List (String × JValue) :=
  mergeSpread defaultConfig fileParsed

/-- The merge steps of getConfig (lines 233-235): spread the document over
defaultConfig, then overwrite `license` with its own spread over
defaultLicenseConfig. -/
def mergedConfig (fileParsed : JValue) : List (String × JValue) :=
  let m := mergedTop fileParsed
  setKey m "license"
    (.obj (mergeSpread defaultLicenseConfig ((lookupKey m "license").getD .null)))

/-- The binaryName advisory (lines 226-230), evaluated on the raw parsed
document before any merge. -/
def advisoryLog (fp : JValue) : List Event :=
  if truthy (propGet fp "binaryName") then []
  else [.logWarning binaryNameWarning]

/-- The addon loop over the merged record (lines 245-291), then the return
of the record (line 293). -/
def addonsStep (w : List Event) (m : List (String × JValue)) : Outcome :=
  match checkAddons ((lookupKey m "addons").getD .null)
      (forInKeys ((lookupKey m "addons").getD .null)) [] with
  | .error errs => .thrown (w ++ errs)
  | .ok errs => .ok (.obj m) (w ++ errs)

/-- The validation tail of getConfig (lines 240-293) on the merged record:
the product gate (reading `.product` throws if the merged version is null),
then the addon loop. -/
def validateMerged (w : List Event) (m : List (String × JValue)) : Outcome :=
  match (lookupKey m "version").getD .null with
  | .null => .thrown w
  | vv =>
    if productValid (propGet vv "product") then addonsStep w m
    else .exitOne (w ++ [.logError (invalidProductMsg (propGet vv "product"))])

/-- getConfig after a successful JSON.parse (lines 226-293): the binaryName
advisory on the raw document, the merges, the product gate, and the addon
loop.  Reading `.binaryName` on a null document, `.product` on a null
version, or `.id` on a null addon throws (Outcome.thrown). -/
def getConfigFromParsed (fileParsed : JValue) : Outcome :=
  match fileParsed with
  | .null => .thrown []
  | fp => validateMerged (advisoryLog fp) (mergedConfig fp)

/-! ### JSON.parse -/

/-- The four JSON whitespace characters. -/
def isWsChar (c : Char) : Bool := c == ' ' || c == '\t' || c == '\n' || c == '\r'

/-- Drop leading JSON whitespace. -/
def skipWs : List Char → List Char
  | c :: cs => if isWsChar c then skipWs cs else c :: cs
  | [] => []

/-- Value of one hexadecimal digit. -/
def hexNib (c : Char) : Option Nat :=
  if '0' ≤ c && c ≤ '9' then some (c.toNat - 48)
  else if 'a' ≤ c && c ≤ 'f' then some (c.toNat - 97 + 10)
  else if 'A' ≤ c && c ≤ 'F' then some (c.toNat - 65 + 10)
  else none

/-- The character a `\uXXXX` escape denotes (U+0000 for surrogate halves,
which Lean `Char` cannot represent). -/
def uniChar (n : Nat) : Char := Char.ofNat n

/-- One named escape: the character a `\x` escape shorthand denotes. -/
def escName : Char → Option Char
  | '"' => some '"'
  | '\\' => some '\\'
  | '/' => some '/'
  | 'b' => some '\x08'
  | 'f' => some '\x0c'
  | 'n' => some '\n'
  | 'r' => some '\x0d'
  | 't' => some '\t'
  | _ => none

/-- String body after the opening quote: plain characters up to the closing
quote, with the JSON escapes; raw control characters are rejected, as
`JSON.parse` rejects them. -/
def parseStrChars : List Char → Option (List Char × List Char)
  | [] => none
  | c :: rest =>
    if c == '"' then some ([], rest)
    else if c == '\\' then
      match rest with
      | 'u' :: a :: b :: c2 :: d :: rest2 =>
        (match hexNib a, hexNib b, hexNib c2, hexNib d with
         | some va, some vb, some vc, some vd =>
           (parseStrChars rest2).map
             (fun p => (uniChar (((va * 16 + vb) * 16 + vc) * 16 + vd) :: p.1, p.2))
         | _, _, _, _ => none)
      | e :: rest2 =>
        (match escName e with
         | some ch => (parseStrChars rest2).map (fun p => (ch :: p.1, p.2))
         | none => none)
      | [] => none
    else if c.toNat < 32 then none
    else (parseStrChars rest).map (fun p => (c :: p.1, p.2))

/-- Maximal run of decimal digits. -/
def digitSpan : List Char → List Char × List Char
  | c :: cs =>
    if c.isDigit then
      let p := digitSpan cs
      (c :: p.1, p.2)
    else ([], c :: cs)
  | [] => ([], [])

/-- Integer part of a JSON number: a single `0`, or a nonzero digit followed
by more digits (leading zeros are not part of the grammar). -/
def parseIntPart : List Char → Option (List Char × List Char)
  | [] => none
  | c :: cs =>
    if c == '0' then some (['0'], cs)
    else if c.isDigit then
      let p := digitSpan cs
      some (c :: p.1, p.2)
    else none

/-- Optional fraction part: a dot demands at least one digit. -/
def parseFracPart : List Char → Option (List Char × List Char)
  | [] => some ([], [])
  | c :: cs =>
    if c == '.' then
      let p := digitSpan cs
      if p.1.isEmpty then none else some ('.' :: p.1, p.2)
    else some ([], c :: cs)

/-- After the `e`/`E` of an exponent: an optional sign, then at least one
digit. -/
def expTail (e0 : Char) : List Char → Option (List Char × List Char)
  | [] => none
  | s :: cs2 =>
    if s == '+' || s == '-' then
      let p := digitSpan cs2
      if p.1.isEmpty then none else some (e0 :: s :: p.1, p.2)
    else
      let p := digitSpan (s :: cs2)
      if p.1.isEmpty then none else some (e0 :: p.1, p.2)

/-- Optional exponent part: `e`/`E`, an optional sign, at least one digit. -/
def parseExpPart : List Char → Option (List Char × List Char)
  | [] => some ([], [])
  | c :: cs =>
    if c == 'e' || c == 'E' then expTail c cs
    else some ([], c :: cs)

/-- A JSON number, kept as its lexeme. -/
def parseNumber (cs0 : List Char) : Option (String × List Char) :=
  let sp : List Char × List Char :=
    match cs0 with
    | [] => ([], [])
    | c :: r => if c == '-' then (['-'], r) else ([], c :: r)
  match parseIntPart sp.2 with
  | none => none
  | some (ip, cs1) =>
    match parseFracPart cs1 with
    | none => none
    | some (fp, cs2) =>
      match parseExpPart cs2 with
      | none => none
      | some (ep, cs3) => some (String.mk (sp.1 ++ ip ++ fp ++ ep), cs3)

mutual
/-- One JSON value (fuel-bounded recursive descent; the fuel only limits
nesting work and `parseJson` supplies input length plus one, which covers
every accepting run since at least one character is consumed per unit). -/
def parseVal : Nat → List Char → Option (JValue × List Char)
  | 0, _ => none
  | fuel + 1, cs0 =>
    match skipWs cs0 with
    | 'n' :: 'u' :: 'l' :: 'l' :: r => some (.null, r)
    | 't' :: 'r' :: 'u' :: 'e' :: r => some (.jbool true, r)
    | 'f' :: 'a' :: 'l' :: 's' :: 'e' :: r => some (.jbool false, r)
    | '"' :: r =>
      (match parseStrChars r with
       | none => none
       | some (sc, r2) => some (.str (String.mk sc), r2))
    | '[' :: r =>
      (match skipWs r with
       | [] => none
       | c :: r2 =>
         if c == ']' then some (.arr [], r2)
         else parseItems fuel (c :: r2) [])
    | '\x7b' :: r =>
      (match skipWs r with
       | [] => none
       | c :: r2 =>
         if c == '\x7d' then some (.obj [], r2)
         else parseMembers fuel (c :: r2) [])
    | cs => (parseNumber cs).map (fun p => (JValue.num p.1, p.2))
/-- One-or-more comma-separated array items (the empty array is handled in
`parseVal`). -/
def parseItems : Nat → List Char → List JValue → Option (JValue × List Char)
  | 0, _, _ => none
  | fuel + 1, cs, acc =>
    match parseVal fuel cs with
    | none => none
    | some (v, r) =>
      match skipWs r with
      | ',' :: r2 => parseItems fuel r2 (acc ++ [v])
      | ']' :: r2 => some (.arr (acc ++ [v]), r2)
      | _ => none
/-- One-or-more comma-separated object members; duplicate keys overwrite
last-wins at the first position, as `JSON.parse` does. -/
def parseMembers : Nat → List Char → List (String × JValue) →
    Option (JValue × List Char)
  | 0, _, _ => none
  | fuel + 1, cs, acc =>
    match skipWs cs with
    | '"' :: r =>
      (match parseStrChars r with
       | none => none
       | some (kc, r1) =>
         match skipWs r1 with
         | ':' :: r2 =>
           (match parseVal fuel r2 with
            | none => none
            | some (v, r3) =>
              match skipWs r3 with
              | ',' :: r4 => parseMembers fuel r4 (setKey acc (String.mk kc) v)
              | '\x7d' :: r4 => some (.obj (setKey acc (String.mk kc) v), r4)
              | _ => none)
         | _ => none)
    | _ => none
end

/-- JSON.parse: one value, with only whitespace around it. -/
def parseJson (t : String) : Option JValue :=
  match parseVal (t.length + 1) t.data with
  | none => none
  | some (v, rest) => if skipWs rest = [] then some v else none

/-- Resolution of a given raw text: JSON.parse with the fatal error report
on failure (lines 215-223), then the parsed-document pipeline. -/
def getConfigText (t : String) : Outcome :=
  match parseJson t with
  | none => .exitOne [.logError parseErrorMsg, .logException]
  | some v => getConfigFromParsed v

/-- Value of a digit run read in base ten. -/
def natOfDigits (ds : List Char) : Nat :=
  ds.foldl (fun a c => a * 10 + (c.toNat - 48)) 0

/-- Exact numeric content of a JSON number lexeme, sign apart: the mantissa
(integer and fraction digits read as one integer) and the power of ten it
carries, so that the denoted magnitude is mantissa times ten to the power. -/
def numMantissaExp (lit : String) : Nat × Int :=
  let cs := match lit.data with
    | '-' :: r => r
    | r => r
  let ip := cs.takeWhile Char.isDigit
  let r1 := cs.dropWhile Char.isDigit
  let fp := match r1 with
    | '.' :: r2 => r2.takeWhile Char.isDigit
    | _ => []
  let r3 := match r1 with
    | '.' :: r2 => r2.dropWhile Char.isDigit
    | r => r
  let ex : Int := match r3 with
    | 'e' :: u | 'E' :: u =>
      (match u with
       | '+' :: u2 => (natOfDigits u2 : Int)
       | '-' :: u2 => -(natOfDigits u2 : Int)
       | u2 => (natOfDigits u2 : Int))
    | _ => 0
  (natOfDigits (ip ++ fp), ex - fp.length)

/-- Whether JSON.parse turns the lexeme into a finite double: the exact
decimal magnitude stays below (2^54 - 1) * 2^970, the midpoint between the
largest finite double and 2^1024 (round-to-nearest-even sends the midpoint
and everything above it to Infinity). -/
def numFinite (lit : String) : Bool :=
  let p := numMantissaExp lit
  if 0 ≤ p.2 then p.1 * 10 ^ p.2.toNat < (2 ^ 54 - 1) * 2 ^ 970
  else p.1 < (2 ^ 54 - 1) * 2 ^ 970 * 10 ^ (-p.2).toNat

/-! ### JSON.stringify(_, null, 2) -/

/-- Lowercase hexadecimal digit character. -/
def hexDigitChar (n : Nat) : Char :=
  if n < 10 then Char.ofNat (48 + n) else Char.ofNat (97 + (n - 10))

/-- JSON.stringify escaping for one character. -/
def escChar (c : Char) : List Char :=
  if c == '"' then ['\\', '"']
  else if c == '\\' then ['\\', '\\']
  else if c == '\x08' then ['\\', 'b']
  else if c == '\x0c' then ['\\', 'f']
  else if c == '\n' then ['\\', 'n']
  else if c == '\r' then ['\\', 'r']
  else if c.toNat < 32 then
    ['\\', 'u', '0', '0', hexDigitChar (c.toNat / 16), hexDigitChar (c.toNat % 16)]
  else [c]

/-- JSON.stringify escaping for a character list. -/
def escList : List Char → List Char
  | [] => []
  | c :: cs => escChar c ++ escList cs

/-- The two-space indentation at a given depth. -/
def indentChars (depth : Nat) : List Char := List.replicate (2 * depth) ' '

mutual
/-- Render a value at a depth, as `JSON.stringify(v, null, 2)` lays it out:
scalars inline, containers with one element per line indented two spaces
per depth, closing bracket back at the container depth.  A number whose
lexeme overflowed the double range prints as `null`, exactly as
JSON.stringify serialises the Infinity that JSON.parse produced; a finite
number is rendered by its retained lexeme, which agrees with
JSON.stringify exactly when the lexeme is already in ES canonical form
(stringify re-derives the text from the double value), so results about
the printer either stay number-free or ride the overflow branch. -/
def printVal : Nat → JValue → List Char
  | _, .null => ['n', 'u', 'l', 'l']
  | _, .jbool true => ['t', 'r', 'u', 'e']
  | _, .jbool false => ['f', 'a', 'l', 's', 'e']
  | _, .num lit => if numFinite lit then lit.data else ['n', 'u', 'l', 'l']
  | _, .str s => '"' :: (escList s.data ++ ['"'])
  | _, .arr [] => ['[', ']']
  | d, .arr (x :: xs) =>
    '[' :: '\n' :: (printItems (d + 1) x xs ++ '\n' :: (indentChars d ++ [']']))
  | _, .obj [] => ['\x7b', '\x7d']
  | d, .obj (p :: ps) =>
    '\x7b' :: '\n' :: (printMembers (d + 1) p ps ++ '\n' :: (indentChars d ++ ['\x7d']))
termination_by _ v => sizeOf v
/-- Render a nonempty run of array items, one per line. -/
def printItems : Nat → JValue → List JValue → List Char
  | d, x, [] => indentChars d ++ printVal d x
  | d, x, y :: ys =>
    indentChars d ++ printVal d x ++ ',' :: '\n' :: printItems d y ys
termination_by _ x xs => 1 + sizeOf x + sizeOf xs
/-- Render a nonempty run of object members, one per line. -/
def printMembers : Nat → String × JValue → List (String × JValue) → List Char
  | d, p, [] => printOneMember d p
  | d, p, q :: qs => printOneMember d p ++ ',' :: '\n' :: printMembers d q qs
termination_by _ p ps => 1 + sizeOf p + sizeOf ps
/-- Render one `"key": value` member at a depth. -/
def printOneMember : Nat → String × JValue → List Char
  | d, (k, v) =>
    indentChars d ++ ('"' :: (escList k.data ++ ['"'])) ++ ':' :: ' ' :: printVal d v
termination_by _ p => sizeOf p
end

/-- JSON.stringify(v, null, 2). -/
def stringifyIndent (v : JValue) : String := String.mk (printVal 0 v)

/-- The text saveConfig writes (line 297): the record serialised with
two-space indentation. -/
def saveConfigText (cfg : JValue) : String := stringifyIndent cfg

/-- Well-formedness of a parse result, the invariant the codec round-trip
rides on: object keys never repeat (the parser collapses duplicates), and a
number lexeme re-parses to itself exactly. -/
inductive Wf : JValue → Prop where
  | null : Wf .null
  | jbool (b : Bool) : Wf (.jbool b)
  | str (s : String) : Wf (.str s)
  | num (lit : String) (h : parseNumber lit.data = some (lit, [])) : Wf (.num lit)
  | arr (elems : List JValue) (h : ∀ x ∈ elems, Wf x) : Wf (.arr elems)
  | obj (fields : List (String × JValue)) (hk : (fields.map Prod.fst).Nodup)
      (hv : ∀ p ∈ fields, Wf p.2) : Wf (.obj fields)

mutual
/-- Whether a value contains no number leaf at all.  On such values the
rendered text involves no number lexeme, so the printer is exact. -/
def numFree : JValue → Bool
  | .null => true
  | .jbool _ => true
  | .str _ => true
  | .num _ => false
  | .arr xs => numFreeList xs
  | .obj fs => numFreeFields fs
termination_by v => sizeOf v
/-- numFree over the elements of an array. -/
def numFreeList : List JValue → Bool
  | [] => true
  | x :: xs => numFree x && numFreeList xs
termination_by xs => sizeOf xs
/-- numFree over the values of an object field list. -/
def numFreeFields : List (String × JValue) → Bool
  | [] => true
  | (_, v) :: ps => numFree v && numFreeFields ps
termination_by ps => sizeOf ps
end

/-- The member chunk of the rendered text after its indentation:
`"key": value`. -/
def printKV (d : Nat) (p : String × JValue) : List Char :=
  '"' :: (escList p.1.data ++ ('"' :: (':' :: (' ' :: printVal d p.2))))

/-- What follows one rendered array item at depth `d0 + 1`: either the
newline, closing indentation and bracket, or the comma, newline and the
next items. -/
def printedTail (d0 : Nat) : List JValue → List Char → List Char
  | [], rest => '\n' :: (indentChars d0 ++ (']' :: rest))
  | y :: ys, rest =>
    ',' :: ('\n' :: (indentChars (d0 + 1) ++ (printVal (d0 + 1) y ++ printedTail d0 ys rest)))

/-- What follows one rendered object member at depth `d0 + 1`. -/
def printedMemTail (d0 : Nat) : List (String × JValue) → List Char → List Char
  | [], rest => '\n' :: (indentChars d0 ++ ('\x7d' :: rest))
  | q :: qs, rest =>
    ',' :: ('\n' :: (indentChars (d0 + 1) ++ (printKV (d0 + 1) q ++ printedMemTail d0 qs rest)))

/-- A remainder that cannot lengthen a number lexeme: empty, or led by a
character that is no digit, dot, sign or exponent letter.  Every character
the renderer ever places after a value qualifies. -/
def numDelim : List Char → Bool
  | [] => true
  | c :: _ => !(c.isDigit || c == '.' || c == 'e' || c == 'E' || c == '+' || c == '-')

/-- The structural anatomy of a JSON number lexeme as this parser accepts
it: optional minus, integer part, optional fraction, optional exponent. -/
def NumShape (l : List Char) : Prop :=
  ∃ sgn ip fp ep, l = sgn ++ ip ++ fp ++ ep
    ∧ (sgn = [] ∨ sgn = ['-'])
    ∧ (ip = ['0'] ∨ ∃ c ds, ip = c :: ds ∧ c.isDigit = true ∧ c ≠ '0'
        ∧ ∀ d ∈ ds, d.isDigit = true)
    ∧ (fp = [] ∨ ∃ ds, fp = '.' :: ds ∧ ds ≠ [] ∧ ∀ d ∈ ds, d.isDigit = true)
    ∧ (ep = [] ∨ ∃ e0 sg ds, ep = e0 :: (sg ++ ds) ∧ (e0 = 'e' ∨ e0 = 'E')
        ∧ (sg = [] ∨ sg = ['+'] ∨ sg = ['-']) ∧ ds ≠ []
        ∧ ∀ d ∈ ds, d.isDigit = true)

/-! ### Module state and the stateful operations -/

/-- The module-level mutable state (`hasWarnedAboutConfig` line 16,
`mockConfig` line 182) together with the backing file: `none` when
`gluon.json` does not exist, otherwise its text. -/
structure ProcState where
  hasWarnedAboutConfig : Bool
  mockConfig : String
  fsFile : Option String
deriving Repr, DecidableEq

/-- setMockRawConfig (lines 184-186). -/
def setMockRawConfig (config : String) (s : ProcState) : ProcState :=
  { s with mockConfig := config }

/-- hasConfig (lines 178-180): existsSync on the config path. -/
def hasConfig (s : ProcState) : Bool := s.fsFile.isSome

/-- rawConfig (lines 188-209): the mock short-circuit, then the existence
check, the read, or the warn-once default text. -/
def rawConfig (s : ProcState) : String × List Event × ProcState :=
  if s.mockConfig ≠ "" then (s.mockConfig, [], s)
  else
    match s.fsFile with
    | some contents => (contents, [.checkExists, .readFile], s)
    | none =>
      if s.hasWarnedAboutConfig then ("\x7b\x7d", [.checkExists], s)
      else
        ("\x7b\x7d", [.checkExists, .logWarning missingConfigWarning],
         { s with hasWarnedAboutConfig := true })

/-- getConfig (lines 211-294) as a state transformer: every call runs
rawConfig and the whole pipeline again (the function body contains no
cache). -/
def getConfig (s : ProcState) : Outcome × ProcState :=
  let r := rawConfig s
  ((getConfigText r.1).withLog r.2.1, r.2.2)

/-- Line 300, `export const config = getConfig()`: the one evaluation of
getConfig at module load; this constant, not getConfig itself, is what
later reads of `config` share. -/
def moduleLoadConfig (s0 : ProcState) : Outcome × ProcState := getConfig s0

/-! ### Accessors and concrete inputs used by the claims -/

/-- A top-level field of the returned Config, if the run returned one. -/
def configField (o : Outcome) (k : String) : Option JValue :=
  match o.config with
  | some (.obj fs) => lookupKey fs k
  | _ => none

/-- A field of a field of the returned Config. -/
def configField2 (o : Outcome) (k1 k2 : String) : Option JValue :=
  match configField o k1 with
  | some (.obj fs) => lookupKey fs k2
  | _ => none

/-- A top-level string field of the returned Config. -/
def configStrField (o : Outcome) (k : String) : Option String :=
  match configField o k with
  | some (.str s) => some s
  | _ => none

/-- The merged record's `version` field, as the product gate reads it:
`undefined` (an impossible case, since the defaults provide one) and `null`
coincide, since reading `.product` off either throws. -/
def mergedVersionOf (v : JValue) : JValue :=
  (lookupKey (mergedConfig v) "version").getD .null

/-- The merged record's `version.product`, when the version is not null. -/
def mergedProductOf (v : JValue) : Option JValue :=
  propGet (mergedVersionOf v) "product"

/-- The merged record's `addons` field, as the addon loop reads it. -/
def mergedAddonsOf (v : JValue) : JValue :=
  (lookupKey (mergedConfig v) "addons").getD .null

/-- The addon loop throws a TypeError exactly when some visited key holds a
null entry (reading `.id` off null). -/
def addonsCrash (av : JValue) : Prop :=
  ∃ k ∈ forInKeys av, (propGet av k = none ∨ propGet av k = some JValue.null)

/-- The scenario document of the addon-validation claim:
`\x7b"addons":\x7b"foo":\x7b"platform":"amo","id":"x"\x7d\x7d\x7d`. -/
def amoScenarioDoc : String :=
  "\x7b\"addons\":\x7b\"foo\":\x7b\"platform\":\"amo\",\"id\":\"x\"\x7d\x7d\x7d"

/-- A process state whose backing file holds `\x7b"name":"a"\x7d`. -/
def stateFileA : ProcState :=
  { hasWarnedAboutConfig := false, mockConfig := "",
    fsFile := some "\x7b\"name\":\"a\"\x7d" }

/-- The same backing file text with `"name":"b"`. -/
def fileTextB : String := "\x7b\"name\":\"b\"\x7d"

/-! ### Association-list lemmas for the spread merge -/

theorem lookupKey_setKey_self (l : List (String × JValue)) (k : String) (v : JValue) :
    lookupKey (setKey l k v) k = some v := by
  induction l with
  | nil => simp [setKey, lookupKey]
  | cons p rest ih =>
    obtain ⟨a, b⟩ := p
    by_cases h : a = k
    · simp [setKey, h, lookupKey]
    · simp [setKey, h, lookupKey, ih]

theorem lookupKey_setKey_ne (l : List (String × JValue)) (k k' : String) (v : JValue)
    (h : k' ≠ k) : lookupKey (setKey l k v) k' = lookupKey l k' := by
  have hk : ¬(k = k') := fun he => h he.symm
  induction l with
  | nil => simp [setKey, lookupKey, hk]
  | cons p rest ih =>
    obtain ⟨a, b⟩ := p
    by_cases hp : a = k
    · subst hp
      simp [setKey, lookupKey, hk]
    · simp only [setKey, if_neg hp, lookupKey]
      by_cases hp' : a = k'
      · simp [hp']
      · simp [hp', ih]

theorem lookupKey_eq_none_of_not_mem (l : List (String × JValue)) (k : String)
    (h : k ∉ l.map Prod.fst) : lookupKey l k = none := by
  induction l with
  | nil => rfl
  | cons p rest ih =>
    obtain ⟨a, b⟩ := p
    simp only [List.map_cons, List.mem_cons] at h
    push_neg at h
    have ha : ¬(a = k) := fun he => h.1 he.symm
    simp only [lookupKey, if_neg ha]
    exact ih h.2

theorem lookupKey_foldl_setKey_missing (fs : List (String × JValue)) :
    ∀ (base : List (String × JValue)) (k : String), lookupKey fs k = none →
      lookupKey (fs.foldl (fun acc p => setKey acc p.1 p.2) base) k = lookupKey base k := by
  induction fs with
  | nil => intro base k _; rfl
  | cons p rest ih =>
    intro base k h
    obtain ⟨a, b⟩ := p
    simp only [lookupKey] at h
    by_cases hp : a = k
    · simp [hp] at h
    · simp only [if_neg hp] at h
      simp only [List.foldl_cons]
      rw [ih _ k h, lookupKey_setKey_ne _ _ _ _ (fun he => hp he.symm)]

theorem lookupKey_foldl_setKey_found (fs : List (String × JValue)) :
    ∀ (base : List (String × JValue)) (k : String) (v : JValue),
      (fs.map Prod.fst).Nodup → lookupKey fs k = some v →
      lookupKey (fs.foldl (fun acc p => setKey acc p.1 p.2) base) k = some v := by
  induction fs with
  | nil => intro base k v _ h; simp [lookupKey] at h
  | cons p rest ih =>
    intro base k v hnd h
    obtain ⟨a, b⟩ := p
    simp only [List.map_cons, List.nodup_cons] at hnd
    simp only [lookupKey] at h
    by_cases hp : a = k
    · simp only [if_pos hp] at h
      cases h
      subst hp
      have hrest : lookupKey rest a = none :=
        lookupKey_eq_none_of_not_mem rest a hnd.1
      simp only [List.foldl_cons]
      rw [lookupKey_foldl_setKey_missing rest _ _ hrest, lookupKey_setKey_self]
    · simp only [if_neg hp] at h
      simp only [List.foldl_cons]
      exact ih _ k v hnd.2 h

theorem lookupKey_mergeSpread_found (base fs : List (String × JValue)) (k : String)
    (v : JValue) (hnd : (fs.map Prod.fst).Nodup) (h : lookupKey fs k = some v) :
    lookupKey (mergeSpread base (.obj fs)) k = some v :=
  lookupKey_foldl_setKey_found fs base k v hnd h

theorem lookupKey_mergeSpread_missing (base fs : List (String × JValue)) (k : String)
    (h : lookupKey fs k = none) :
    lookupKey (mergeSpread base (.obj fs)) k = lookupKey base k :=
  lookupKey_foldl_setKey_missing fs base k h

theorem logOf_withLog (pre : List Event) (o : Outcome) :
    (o.withLog pre).logOf = pre ++ o.logOf := by
  cases o <;> rfl

/-! ### Structure of the merged record: key layout, nodup, and absorption -/

theorem setKey_of_not_mem (l : List (String × JValue)) (k : String) (v : JValue)
    (h : k ∉ l.map Prod.fst) : setKey l k v = l ++ [(k, v)] := by
  induction l with
  | nil => rfl
  | cons p rest ih =>
    obtain ⟨a, b⟩ := p
    simp only [List.map_cons, List.mem_cons] at h
    push_neg at h
    have ha : ¬(a = k) := fun he => h.1 he.symm
    simp only [setKey, if_neg ha, List.cons_append]
    rw [ih h.2]

theorem map_fst_setKey_of_mem (l : List (String × JValue)) (k : String) (v : JValue)
    (h : k ∈ l.map Prod.fst) : (setKey l k v).map Prod.fst = l.map Prod.fst := by
  induction l with
  | nil => simp at h
  | cons p rest ih =>
    obtain ⟨a, b⟩ := p
    by_cases ha : a = k
    · simp [setKey, ha]
    · simp only [List.map_cons, List.mem_cons] at h
      rcases h with h | h
      · exact absurd h.symm ha
      · simp [setKey, ha, ih h]

theorem nodup_setKey (l : List (String × JValue)) (k : String) (v : JValue)
    (h : (l.map Prod.fst).Nodup) : ((setKey l k v).map Prod.fst).Nodup := by
  by_cases hm : k ∈ l.map Prod.fst
  · rw [map_fst_setKey_of_mem l k v hm]
    exact h
  · rw [setKey_of_not_mem l k v hm]
    simp only [List.map_append, List.map_cons, List.map_nil]
    rw [List.nodup_append]
    exact ⟨h, List.nodup_singleton _, by simpa using hm⟩

theorem setKey_append_left (l₁ l₂ : List (String × JValue)) (k : String) (v : JValue)
    (h : k ∈ l₁.map Prod.fst) : setKey (l₁ ++ l₂) k v = setKey l₁ k v ++ l₂ := by
  induction l₁ with
  | nil => simp at h
  | cons p rest ih =>
    obtain ⟨a, b⟩ := p
    by_cases ha : a = k
    · simp [setKey, ha]
    · simp only [List.map_cons, List.mem_cons] at h
      rcases h with h | h
      · exact absurd h.symm ha
      · simp [setKey, ha, ih h]

theorem setKey_append_right (l₁ l₂ : List (String × JValue)) (k : String) (v : JValue)
    (h : k ∉ l₁.map Prod.fst) : setKey (l₁ ++ l₂) k v = l₁ ++ setKey l₂ k v := by
  induction l₁ with
  | nil => rfl
  | cons p rest ih =>
    obtain ⟨a, b⟩ := p
    simp only [List.map_cons, List.mem_cons] at h
    push_neg at h
    have ha : ¬(a = k) := fun he => h.1 he.symm
    simp only [List.cons_append, setKey, if_neg ha]
    exact congrArg (List.cons (a, b)) (ih h.2)

theorem setKey_lookup_self (l : List (String × JValue)) (k : String) (v : JValue)
    (h : lookupKey l k = some v) : setKey l k v = l := by
  induction l with
  | nil => simp [lookupKey] at h
  | cons p rest ih =>
    obtain ⟨a, b⟩ := p
    simp only [lookupKey] at h
    by_cases ha : a = k
    · simp only [if_pos ha] at h
      cases h
      simp [setKey, ha]
    · simp only [if_neg ha] at h
      simp [setKey, ha, ih h]

theorem foldl_setKey_split (gs : List (String × JValue)) :
    ∀ l₁ l₂ : List (String × JValue), ∃ r₁ r₂ : List (String × JValue),
      gs.foldl (fun acc p => setKey acc p.1 p.2) (l₁ ++ l₂) = r₁ ++ r₂
      ∧ r₁.map Prod.fst = l₁.map Prod.fst := by
  induction gs with
  | nil =>
    intro l₁ l₂
    exact ⟨l₁, l₂, rfl, rfl⟩
  | cons p gs ih =>
    intro l₁ l₂
    simp only [List.foldl_cons]
    by_cases hm : p.1 ∈ l₁.map Prod.fst
    · rw [setKey_append_left l₁ l₂ p.1 p.2 hm]
      obtain ⟨r₁, r₂, heq, hkeys⟩ := ih (setKey l₁ p.1 p.2) l₂
      exact ⟨r₁, r₂, heq, by rw [hkeys, map_fst_setKey_of_mem l₁ p.1 p.2 hm]⟩
    · rw [setKey_append_right l₁ l₂ p.1 p.2 hm]
      obtain ⟨r₁, r₂, heq, hkeys⟩ := ih l₁ (setKey l₂ p.1 p.2)
      exact ⟨r₁, r₂, heq, hkeys⟩

theorem nodup_foldl_setKey (gs : List (String × JValue)) :
    ∀ base : List (String × JValue), (base.map Prod.fst).Nodup →
      ((gs.foldl (fun acc p => setKey acc p.1 p.2) base).map Prod.fst).Nodup := by
  induction gs with
  | nil => intro base h; exact h
  | cons p gs ih =>
    intro base h
    simp only [List.foldl_cons]
    exact ih _ (nodup_setKey base p.1 p.2 h)

theorem foldl_setKey_cons (gs : List (String × JValue)) :
    ∀ (k : String) (v : JValue) (base : List (String × JValue)),
      (∀ p ∈ gs, p.1 ≠ k) →
      gs.foldl (fun acc p => setKey acc p.1 p.2) ((k, v) :: base)
        = (k, v) :: gs.foldl (fun acc p => setKey acc p.1 p.2) base := by
  induction gs with
  | nil => intro k v base _; rfl
  | cons p gs ih =>
    intro k v base hne
    simp only [List.foldl_cons]
    have hk : ¬(k = p.1) := fun he => hne p (List.mem_cons_self p gs) he.symm
    have hstep : setKey ((k, v) :: base) p.1 p.2 = (k, v) :: setKey base p.1 p.2 := by
      simp [setKey, hk]
    rw [hstep, ih k v _ (fun q hq => hne q (List.mem_cons_of_mem p hq))]

theorem foldl_setKey_overwrite :
    ∀ (l₁ base : List (String × JValue)),
      l₁.map Prod.fst = base.map Prod.fst → (l₁.map Prod.fst).Nodup →
      l₁.foldl (fun acc p => setKey acc p.1 p.2) base = l₁ := by
  intro l₁
  induction l₁ with
  | nil =>
    intro base hkeys _
    have : base = [] := by
      cases base with
      | nil => rfl
      | cons q qs => simp at hkeys
    rw [this]
    rfl
  | cons p l₁ ih =>
    intro base hkeys hnd
    obtain ⟨a, b⟩ := p
    cases base with
    | nil => simp at hkeys
    | cons q qs =>
      obtain ⟨a2, b2⟩ := q
      simp only [List.map_cons, List.cons.injEq] at hkeys
      obtain ⟨hae, hrest⟩ := hkeys
      simp only [List.map_cons, List.nodup_cons] at hnd
      subst hae
      have hstep : setKey ((a, b2) :: qs) a b = (a, b) :: qs := by
        simp [setKey]
      simp only [List.foldl_cons, hstep]
      rw [foldl_setKey_cons l₁ a b qs (fun p hp => fun he => hnd.1 (he ▸ List.mem_map_of_mem Prod.fst hp))]
      rw [ih qs hrest hnd.2]

theorem foldl_setKey_fresh :
    ∀ (l₂ l₁ : List (String × JValue)),
      (∀ k ∈ l₂.map Prod.fst, k ∉ l₁.map Prod.fst) → (l₂.map Prod.fst).Nodup →
      l₂.foldl (fun acc p => setKey acc p.1 p.2) l₁ = l₁ ++ l₂ := by
  intro l₂
  induction l₂ with
  | nil => intro l₁ _ _; simp
  | cons p l₂ ih =>
    intro l₁ hdisj hnd
    obtain ⟨a, b⟩ := p
    simp only [List.map_cons, List.nodup_cons] at hnd
    simp only [List.foldl_cons]
    have hstep : setKey l₁ a b = l₁ ++ [(a, b)] :=
      setKey_of_not_mem l₁ a b (hdisj a (by simp))
    rw [hstep]
    rw [ih (l₁ ++ [(a, b)]) ?_ hnd.2]
    · simp
    · intro k hk
      simp only [List.map_append, List.map_cons, List.map_nil, List.mem_append,
        List.mem_singleton]
      push_neg
      refine ⟨hdisj k (by simp [hk]), ?_⟩
      intro he
      exact hnd.1 (he ▸ hk)

theorem foldl_setKey_absorb (l₁ l₂ base : List (String × JValue))
    (hkeys : l₁.map Prod.fst = base.map Prod.fst)
    (hnd : ((l₁ ++ l₂).map Prod.fst).Nodup) :
    (l₁ ++ l₂).foldl (fun acc p => setKey acc p.1 p.2) base = l₁ ++ l₂ := by
  simp only [List.map_append, List.nodup_append] at hnd
  obtain ⟨hnd1, hnd2, hdisj⟩ := hnd
  rw [List.foldl_append]
  rw [foldl_setKey_overwrite l₁ base hkeys hnd1]
  exact foldl_setKey_fresh l₂ l₁ (fun k hk hmem => hdisj hmem hk) hnd2

theorem mergeSpread_absorb (base M : List (String × JValue))
    (hshape : ∃ l₁ l₂ : List (String × JValue),
      M = l₁ ++ l₂ ∧ l₁.map Prod.fst = base.map Prod.fst)
    (hnd : (M.map Prod.fst).Nodup) :
    mergeSpread base (.obj M) = M := by
  obtain ⟨l₁, l₂, rfl, hkeys⟩ := hshape
  exact foldl_setKey_absorb l₁ l₂ base hkeys hnd

theorem mergedTop_shape (v : JValue) :
    ∃ l₁ l₂ : List (String × JValue),
      mergedTop v = l₁ ++ l₂ ∧ l₁.map Prod.fst = defaultConfig.map Prod.fst := by
  have h := foldl_setKey_split (contrib v) defaultConfig []
  simpa [mergedTop, mergeSpread] using h

theorem mergedTop_nodup (v : JValue) : ((mergedTop v).map Prod.fst).Nodup := by
  have h := nodup_foldl_setKey (contrib v) defaultConfig (by decide)
  simpa [mergedTop, mergeSpread] using h

theorem mergedConfig_eq_setKey (v : JValue) :
    mergedConfig v = setKey (mergedTop v) "license"
      (.obj (mergeSpread defaultLicenseConfig
        ((lookupKey (mergedTop v) "license").getD .null))) := rfl

theorem mergedConfig_shape (v : JValue) :
    ∃ l₁ l₂ : List (String × JValue),
      mergedConfig v = l₁ ++ l₂ ∧ l₁.map Prod.fst = defaultConfig.map Prod.fst := by
  obtain ⟨l₁, l₂, heq, hkeys⟩ := mergedTop_shape v
  have hmem : "license" ∈ l₁.map Prod.fst := by
    rw [hkeys]
    decide
  refine ⟨setKey l₁ "license"
    (.obj (mergeSpread defaultLicenseConfig
      ((lookupKey (mergedTop v) "license").getD .null))), l₂, ?_, ?_⟩
  · rw [mergedConfig_eq_setKey, heq, setKey_append_left l₁ l₂ _ _ hmem]
  · rw [map_fst_setKey_of_mem l₁ _ _ hmem]
    exact hkeys

theorem mergedConfig_nodup (v : JValue) : ((mergedConfig v).map Prod.fst).Nodup := by
  rw [mergedConfig_eq_setKey]
  exact nodup_setKey _ _ _ (mergedTop_nodup v)

theorem licenseMerge_shape (lv : JValue) :
    ∃ l₁ l₂ : List (String × JValue),
      mergeSpread defaultLicenseConfig lv = l₁ ++ l₂
      ∧ l₁.map Prod.fst = defaultLicenseConfig.map Prod.fst := by
  have h := foldl_setKey_split (contrib lv) defaultLicenseConfig []
  simpa [mergeSpread] using h

theorem licenseMerge_nodup (lv : JValue) :
    ((mergeSpread defaultLicenseConfig lv).map Prod.fst).Nodup := by
  have h := nodup_foldl_setKey (contrib lv) defaultLicenseConfig (by decide)
  simpa [mergeSpread] using h

theorem mergedConfig_idem (v : JValue) :
    mergedConfig (.obj (mergedConfig v)) = mergedConfig v := by
  have h1 : mergedTop (.obj (mergedConfig v)) = mergedConfig v :=
    mergeSpread_absorb defaultConfig (mergedConfig v)
      (mergedConfig_shape v) (mergedConfig_nodup v)
  have hlic : lookupKey (mergedConfig v) "license"
      = some (.obj (mergeSpread defaultLicenseConfig
        ((lookupKey (mergedTop v) "license").getD .null))) := by
    rw [mergedConfig_eq_setKey]
    exact lookupKey_setKey_self _ _ _
  have h2 : mergeSpread defaultLicenseConfig
      ((lookupKey (mergedConfig v) "license").getD .null)
      = mergeSpread defaultLicenseConfig
        ((lookupKey (mergedTop v) "license").getD .null) := by
    rw [hlic]
    exact mergeSpread_absorb defaultLicenseConfig _
      (licenseMerge_shape _) (licenseMerge_nodup _)
  rw [mergedConfig_eq_setKey (.obj (mergedConfig v)), h1, h2]
  exact setKey_lookup_self _ _ _ hlic

theorem getConfigFromParsed_not_null (fp : JValue) (h : fp ≠ .null) :
    getConfigFromParsed fp = validateMerged (advisoryLog fp) (mergedConfig fp) := by
  cases fp with
  | null => exact absurd rfl h
  | jbool b => rfl
  | num l => rfl
  | str s => rfl
  | arr xs => rfl
  | obj fs => rfl

theorem validateMerged_null_version (w : List Event) (m : List (String × JValue))
    (h : (lookupKey m "version").getD .null = .null) :
    validateMerged w m = .thrown w := by
  unfold validateMerged
  rw [h]

theorem validateMerged_of_version (w : List Event) (m : List (String × JValue))
    (vv : JValue) (h : (lookupKey m "version").getD .null = vv) (hnn : vv ≠ .null) :
    validateMerged w m
      = (if productValid (propGet vv "product") then addonsStep w m
         else .exitOne (w ++ [.logError (invalidProductMsg (propGet vv "product"))])) := by
  unfold validateMerged
  rw [h]
  cases vv with
  | null => exact absurd rfl hnn
  | jbool b => rfl
  | num l => rfl
  | str s => rfl
  | arr xs => rfl
  | obj fs => rfl

theorem validateMerged_bad_product (w : List Event) (m : List (String × JValue))
    (vv : JValue) (h : (lookupKey m "version").getD .null = vv) (hnn : vv ≠ .null)
    (hp : productValid (propGet vv "product") = false) :
    validateMerged w m
      = .exitOne (w ++ [.logError (invalidProductMsg (propGet vv "product"))]) := by
  rw [validateMerged_of_version w m vv h hnn]
  simp [hp]

theorem validateMerged_good_product (w : List Event) (m : List (String × JValue))
    (vv : JValue) (h : (lookupKey m "version").getD .null = vv) (hnn : vv ≠ .null)
    (hp : productValid (propGet vv "product") = true) :
    validateMerged w m = addonsStep w m := by
  rw [validateMerged_of_version w m vv h hnn]
  simp [hp]

theorem addonsStep_error (w : List Event) (m : List (String × JValue)) (e : List Event)
    (h : checkAddons ((lookupKey m "addons").getD .null)
        (forInKeys ((lookupKey m "addons").getD .null)) [] = .error e) :
    addonsStep w m = .thrown (w ++ e) := by
  unfold addonsStep
  rw [h]

theorem addonsStep_ok (w : List Event) (m : List (String × JValue)) (errs : List Event)
    (h : checkAddons ((lookupKey m "addons").getD .null)
        (forInKeys ((lookupKey m "addons").getD .null)) [] = .ok errs) :
    addonsStep w m = .ok (.obj m) (w ++ errs) := by
  unfold addonsStep
  rw [h]

theorem checkAddons_error_iff (av : JValue) :
    ∀ (ks : List String) (acc : List Event),
      (∃ e, checkAddons av ks acc = .error e)
        ↔ ∃ k ∈ ks, (propGet av k = none ∨ propGet av k = some .null) := by
  intro ks
  induction ks with
  | nil =>
    intro acc
    simp [checkAddons]
  | cons k ks ih =>
    intro acc
    cases hpk : propGet av k with
    | none =>
      have hstep : checkAddons av (k :: ks) acc = .error acc := by
        show (match propGet av k with
          | none => Except.error acc
          | some .null => Except.error acc
          | some addon => checkAddons av ks (acc ++ checkAddonFields k addon)) = _
        rw [hpk]
      rw [hstep]
      constructor
      · intro _
        exact ⟨k, List.mem_cons_self k ks, Or.inl hpk⟩
      · intro _
        exact ⟨acc, rfl⟩
    | some a =>
      by_cases han : a = .null
      · subst han
        have hstep : checkAddons av (k :: ks) acc = .error acc := by
          show (match propGet av k with
            | none => Except.error acc
            | some .null => Except.error acc
            | some addon => checkAddons av ks (acc ++ checkAddonFields k addon)) = _
          rw [hpk]
        rw [hstep]
        constructor
        · intro _
          exact ⟨k, List.mem_cons_self k ks, Or.inr hpk⟩
        · intro _
          exact ⟨acc, rfl⟩
      · have hstep : checkAddons av (k :: ks) acc
            = checkAddons av ks (acc ++ checkAddonFields k a) := by
          show (match propGet av k with
            | none => Except.error acc
            | some .null => Except.error acc
            | some addon => checkAddons av ks (acc ++ checkAddonFields k addon)) = _
          rw [hpk]
          cases a with
          | null => exact absurd rfl han
          | jbool b => rfl
          | num l => rfl
          | str s => rfl
          | arr xs => rfl
          | obj fs => rfl
        rw [hstep, ih (acc ++ checkAddonFields k a)]
        constructor
        · rintro ⟨k2, hk2, hP⟩
          exact ⟨k2, List.mem_cons_of_mem _ hk2, hP⟩
        · rintro ⟨k2, hk2, hP⟩
          rcases List.mem_cons.mp hk2 with heq | hk3
          · subst heq
            rw [hpk] at hP
            rcases hP with hbad | hbad
            · exact absurd hbad (by simp)
            · rw [Option.some.injEq] at hbad
              exact absurd hbad han
          · exact ⟨k2, hk3, hP⟩

/-! ### Inversion and idempotence of a successful resolution -/

theorem getConfigFromParsed_ok_inv (v c : JValue) (log : List Event)
    (h : getConfigFromParsed v = .ok c log) :
    v ≠ .null ∧ c = .obj (mergedConfig v) ∧ mergedVersionOf v ≠ .null
    ∧ productValid (mergedProductOf v) = true
    ∧ ∃ errs, checkAddons (mergedAddonsOf v) (forInKeys (mergedAddonsOf v)) [] = .ok errs
        ∧ log = advisoryLog v ++ errs := by
  by_cases hvn : v = JValue.null
  · subst hvn
    exact Outcome.noConfusion h
  · rw [getConfigFromParsed_not_null v hvn] at h
    by_cases hver : mergedVersionOf v = JValue.null
    · rw [validateMerged_null_version _ _ hver] at h
      exact Outcome.noConfusion h
    · by_cases hprodT : productValid (mergedProductOf v) = true
      · rw [validateMerged_good_product _ _ (mergedVersionOf v) rfl hver hprodT] at h
        cases hca : checkAddons (mergedAddonsOf v) (forInKeys (mergedAddonsOf v)) [] with
        | error e =>
          rw [addonsStep_error _ _ e hca] at h
          exact Outcome.noConfusion h
        | ok errs =>
          rw [addonsStep_ok _ _ errs hca] at h
          injection h with h1 h2
          exact ⟨hvn, h1.symm, hver, hprodT, errs, rfl, h2.symm⟩
      · have hprodF : productValid (mergedProductOf v) = false :=
          Bool.not_eq_true _ ▸ Bool.eq_false_iff.mpr hprodT
        rw [validateMerged_bad_product _ _ (mergedVersionOf v) rfl hver hprodF] at h
        exact Outcome.noConfusion h

theorem getConfigFromParsed_idem (v c : JValue) (log : List Event)
    (h : getConfigFromParsed v = .ok c log) :
    ∃ log2, getConfigFromParsed c = .ok c log2 := by
  obtain ⟨hvn, hceq, hver, hprodT, errs, hca, hlog⟩ := getConfigFromParsed_ok_inv v c log h
  have hcn : c ≠ JValue.null := by
    rw [hceq]
    simp
  have hmc : mergedConfig c = mergedConfig v := by
    rw [hceq]
    exact mergedConfig_idem v
  refine ⟨advisoryLog c ++ errs, ?_⟩
  rw [getConfigFromParsed_not_null c hcn, hmc,
    validateMerged_good_product _ _ (mergedVersionOf v) rfl hver hprodT,
    addonsStep_ok _ _ errs hca, ← hceq]

/-! ### Number lexemes: decomposition and rebuilding -/

theorem numDelim_head {c : Char} {t : List Char} (h : numDelim (c :: t) = true) :
    c.isDigit = false ∧ c ≠ '.' ∧ c ≠ 'e' ∧ c ≠ 'E' ∧ c ≠ '+' ∧ c ≠ '-' := by
  simp only [numDelim, Bool.not_eq_true', Bool.or_eq_false_iff,
    beq_eq_false_iff_ne] at h
  exact ⟨h.1.1.1.1.1, h.1.1.1.1.2, h.1.1.1.2, h.1.1.2, h.1.2, h.2⟩

theorem digit_ne_special {c : Char} (h : c.isDigit = true) :
    c ≠ '-' ∧ c ≠ '+' ∧ c ≠ '.' ∧ c ≠ 'e' ∧ c ≠ 'E' := by
  refine ⟨?_, ?_, ?_, ?_, ?_⟩ <;> (intro he; subst he; revert h; decide)

theorem digitSpan_decomp (cs : List Char) :
    cs = (digitSpan cs).1 ++ (digitSpan cs).2 := by
  induction cs with
  | nil => rfl
  | cons c cs ih =>
    by_cases hd : c.isDigit
    · simp only [digitSpan, if_pos hd, List.cons_append]
      exact congrArg (List.cons c) ih
    · simp [digitSpan, hd]

theorem digitSpan_digits (cs : List Char) :
    ∀ c ∈ (digitSpan cs).1, c.isDigit = true := by
  induction cs with
  | nil => intro c hc; simp [digitSpan] at hc
  | cons c cs ih =>
    by_cases hd : c.isDigit
    · simp only [digitSpan, if_pos hd]
      intro c2 hc2
      rcases List.mem_cons.mp hc2 with rfl | hc2
      · exact hd
      · exact ih c2 hc2
    · simp [digitSpan, hd]

theorem digitSpan_exact (ds rest : List Char)
    (hds : ∀ c ∈ ds, c.isDigit = true)
    (hrest : ∀ c t, rest = c :: t → c.isDigit = false) :
    digitSpan (ds ++ rest) = (ds, rest) := by
  induction ds with
  | nil =>
    cases rest with
    | nil => rfl
    | cons c t => simp [digitSpan, hrest c t rfl]
  | cons d ds ih =>
    have hd : d.isDigit = true := hds d (List.mem_cons_self d ds)
    have ih2 := ih (fun c hc => hds c (List.mem_cons_of_mem d hc))
    simp only [List.cons_append, digitSpan, if_pos hd, List.append_eq, ih2]

theorem parseIntPart_inv (cs ip cs1 : List Char)
    (h : parseIntPart cs = some (ip, cs1)) :
    cs = ip ++ cs1
    ∧ (ip = ['0'] ∨ ∃ c ds, ip = c :: ds ∧ c.isDigit = true ∧ c ≠ '0'
        ∧ ∀ d ∈ ds, d.isDigit = true) := by
  cases cs with
  | nil => exact Option.noConfusion h
  | cons c cs =>
    simp only [parseIntPart] at h
    split at h
    · rename_i h0
      injection h with h1
      injection h1 with ha hb
      subst ha
      subst hb
      have hc : c = '0' := by simpa using h0
      subst hc
      exact ⟨rfl, Or.inl rfl⟩
    · split at h
      · rename_i h0 hd
        injection h with h1
        injection h1 with ha hb
        subst ha
        subst hb
        have hc0 : c ≠ '0' := by simpa using h0
        constructor
        · simpa using congrArg (List.cons c) (digitSpan_decomp cs)
        · exact Or.inr ⟨c, (digitSpan cs).1, rfl, hd, hc0, digitSpan_digits cs⟩
      · exact Option.noConfusion h

theorem parseIntPart_build (ip Y : List Char)
    (hip : ip = ['0'] ∨ ∃ c ds, ip = c :: ds ∧ c.isDigit = true ∧ c ≠ '0'
      ∧ ∀ d ∈ ds, d.isDigit = true)
    (hY : ∀ c t, Y = c :: t → c.isDigit = false) :
    parseIntPart (ip ++ Y) = some (ip, Y) := by
  rcases hip with rfl | ⟨c, ds, rfl, hcd, hc0, hds⟩
  · simp [parseIntPart]
  · rw [List.cons_append]
    simp only [parseIntPart, List.append_eq]
    split
    · rename_i h0
      exact absurd (show c = '0' by simpa using h0) hc0
    · rw [digitSpan_exact ds Y hds hY]

theorem parseFracPart_inv (cs fp cs2 : List Char)
    (h : parseFracPart cs = some (fp, cs2)) :
    cs = fp ++ cs2
    ∧ (fp = [] ∨ ∃ ds, fp = '.' :: ds ∧ ds ≠ [] ∧ ∀ d ∈ ds, d.isDigit = true) := by
  cases cs with
  | nil =>
    simp only [parseFracPart] at h
    injection h with h1
    injection h1 with ha hb
    subst ha
    subst hb
    exact ⟨rfl, Or.inl rfl⟩
  | cons c cs =>
    simp only [parseFracPart] at h
    split at h
    · rename_i hdot
      have hc : c = '.' := by simpa using hdot
      subst hc
      split at h
      · exact Option.noConfusion h
      · rename_i he
        injection h with h1
        injection h1 with ha hb
        subst ha
        subst hb
        refine ⟨by simpa using congrArg (List.cons '.') (digitSpan_decomp cs),
          Or.inr ⟨(digitSpan cs).1, rfl, by simpa using he, digitSpan_digits cs⟩⟩
    · injection h with h1
      injection h1 with ha hb
      subst ha
      subst hb
      exact ⟨rfl, Or.inl rfl⟩

theorem parseFracPart_build (fp Y : List Char)
    (hfp : fp = [] ∨ ∃ ds, fp = '.' :: ds ∧ ds ≠ [] ∧ ∀ d ∈ ds, d.isDigit = true)
    (hY1 : ∀ c t, Y = c :: t → c.isDigit = false)
    (hY2 : ∀ c t, Y = c :: t → c ≠ '.') :
    parseFracPart (fp ++ Y) = some (fp, Y) := by
  rcases hfp with rfl | ⟨ds, rfl, hne, hds⟩
  · cases Y with
    | nil => rfl
    | cons c t => simp [parseFracPart, hY2 c t rfl]
  · rw [List.cons_append]
    simp only [parseFracPart, List.append_eq]
    split
    · rw [digitSpan_exact ds Y hds hY1]
      simp [List.isEmpty_iff, hne]
    · rename_i hdot
      exact absurd (by decide : (('.' : Char) == '.') = true) hdot

theorem parseExpPart_inv (cs ep cs3 : List Char)
    (h : parseExpPart cs = some (ep, cs3)) :
    cs = ep ++ cs3
    ∧ (ep = [] ∨ ∃ e0 sg ds, ep = e0 :: (sg ++ ds) ∧ (e0 = 'e' ∨ e0 = 'E')
        ∧ (sg = [] ∨ sg = ['+'] ∨ sg = ['-']) ∧ ds ≠ []
        ∧ ∀ d ∈ ds, d.isDigit = true) := by
  cases cs with
  | nil =>
    simp only [parseExpPart] at h
    injection h with h1
    injection h1 with ha hb
    subst ha
    subst hb
    exact ⟨rfl, Or.inl rfl⟩
  | cons c cs =>
    simp only [parseExpPart] at h
    split at h
    · rename_i hce
      have he0 : c = 'e' ∨ c = 'E' := by
        rcases Bool.or_eq_true_iff.mp hce with h1 | h1
        · exact Or.inl (by simpa using h1)
        · exact Or.inr (by simpa using h1)
      cases cs with
      | nil => exact Option.noConfusion h
      | cons s cs2 =>
        simp only [expTail] at h
        split at h
        · rename_i hs
          split at h
          · exact Option.noConfusion h
          · rename_i hemp
            injection h with h1
            injection h1 with ha hb
            subst ha
            subst hb
            have hss : s = '+' ∨ s = '-' := by
              rcases Bool.or_eq_true_iff.mp hs with h1 | h1
              · exact Or.inl (by simpa using h1)
              · exact Or.inr (by simpa using h1)
            refine ⟨?_, Or.inr ⟨c, [s], (digitSpan cs2).1, by simp, he0,
              by rcases hss with rfl | rfl
                 · exact Or.inr (Or.inl rfl)
                 · exact Or.inr (Or.inr rfl),
              by simpa using hemp, digitSpan_digits cs2⟩⟩
            simpa using congrArg (fun l => c :: s :: l) (digitSpan_decomp cs2)
        · split at h
          · exact Option.noConfusion h
          · rename_i hemp
            injection h with h1
            injection h1 with ha hb
            subst ha
            subst hb
            refine ⟨?_, Or.inr ⟨c, [], (digitSpan (s :: cs2)).1, by simp, he0,
              Or.inl rfl, by simpa using hemp, digitSpan_digits (s :: cs2)⟩⟩
            simpa using congrArg (List.cons c) (digitSpan_decomp (s :: cs2))
    · injection h with h1
      injection h1 with ha hb
      subst ha
      subst hb
      exact ⟨rfl, Or.inl rfl⟩

theorem parseExpPart_build (ep Y : List Char)
    (hep : ep = [] ∨ ∃ e0 sg ds, ep = e0 :: (sg ++ ds) ∧ (e0 = 'e' ∨ e0 = 'E')
      ∧ (sg = [] ∨ sg = ['+'] ∨ sg = ['-']) ∧ ds ≠ []
      ∧ ∀ d ∈ ds, d.isDigit = true)
    (hY : numDelim Y = true) :
    parseExpPart (ep ++ Y) = some (ep, Y) := by
  rcases hep with rfl | ⟨e0, sg, ds, rfl, he0, hsg, hne, hds⟩
  · cases Y with
    | nil => rfl
    | cons c t =>
      obtain ⟨_, _, hce, hcE, _, _⟩ := numDelim_head hY
      simp [parseExpPart, hce, hcE]
  · have he0b : (e0 == 'e' || e0 == 'E') = true := by
      rcases he0 with rfl | rfl <;> decide
    have hYd : ∀ c t, Y = c :: t → c.isDigit = false := by
      intro c t hY2
      subst hY2
      exact (numDelim_head hY).1
    rcases hsg with rfl | rfl | rfl
    · cases ds with
      | nil => exact absurd rfl hne
      | cons d0 ds2 =>
        have hd0 : d0.isDigit = true := hds d0 (by simp)
        obtain ⟨hdm, hdp, _, _, _⟩ := digit_ne_special hd0
        have hsign : ¬((d0 == '+' || d0 == '-') = true) := by simp [hdp, hdm]
        rw [List.nil_append, List.cons_append, List.cons_append]
        simp only [parseExpPart]
        rw [if_pos he0b]
        simp only [expTail]
        rw [if_neg hsign,
          show d0 :: (ds2 ++ Y) = (d0 :: ds2) ++ Y from rfl,
          digitSpan_exact (d0 :: ds2) Y hds hYd]
        simp
    · simp only [List.cons_append, List.nil_append]
      simp only [parseExpPart]
      rw [if_pos he0b]
      simp only [expTail]
      rw [if_pos (by decide : (('+' : Char) == '+' || ('+' : Char) == '-') = true),
        digitSpan_exact ds Y hds hYd]
      simp [List.isEmpty_iff, hne]
    · simp only [List.cons_append, List.nil_append]
      simp only [parseExpPart]
      rw [if_pos he0b]
      simp only [expTail]
      rw [if_pos (by decide : (('-' : Char) == '+' || ('-' : Char) == '-') = true),
        digitSpan_exact ds Y hds hYd]
      simp [List.isEmpty_iff, hne]

theorem parseNumber_tail_inv (sgn tl : List Char) (l : String) (rest : List Char)
    (hsgn : sgn = [] ∨ sgn = ['-'])
    (h : (match parseIntPart tl with
      | none => none
      | some (ip, cs1) =>
        match parseFracPart cs1 with
        | none => none
        | some (fp, cs2) =>
          match parseExpPart cs2 with
          | none => none
          | some (ep, cs3) =>
            some (String.mk (sgn ++ ip ++ fp ++ ep), cs3)) = some (l, rest)) :
    tl = l.data.drop sgn.length ++ rest ∧ l.data = sgn ++ l.data.drop sgn.length
    ∧ NumShape l.data := by
  split at h
  · exact Option.noConfusion h
  · rename_i ip cs1 hip
    split at h
    · exact Option.noConfusion h
    · rename_i fp cs2 hfp
      split at h
      · exact Option.noConfusion h
      · rename_i ep cs3 hep
        injection h with h1
        injection h1 with ha hb
        subst hb
        obtain ⟨htl, hips⟩ := parseIntPart_inv tl ip cs1 hip
        obtain ⟨hcs1, hfps⟩ := parseFracPart_inv cs1 fp cs2 hfp
        obtain ⟨hcs2, heps⟩ := parseExpPart_inv cs2 ep cs3 hep
        have hdata : l.data = sgn ++ ip ++ fp ++ ep := by
          rw [← ha]
        have hdrop : l.data.drop sgn.length = ip ++ fp ++ ep := by
          rw [hdata]
          simp [List.append_assoc]
        refine ⟨?_, ?_, sgn, ip, fp, ep, hdata, hsgn, hips, hfps, heps⟩
        · rw [hdrop, htl, hcs1, hcs2]
          simp [List.append_assoc]
        · rw [hdrop, hdata]
          simp [List.append_assoc]


theorem parseNumber_inv (cs : List Char) (l : String) (rest : List Char)
    (h : parseNumber cs = some (l, rest)) :
    cs = l.data ++ rest ∧ NumShape l.data := by
  cases cs with
  | nil => exact Option.noConfusion h
  | cons c r =>
    by_cases hc : (c == '-') = true
    · have hc2 : c = '-' := by simpa using hc
      subst hc2
      simp only [parseNumber, if_pos hc] at h
      obtain ⟨htl, hsplit, hshape⟩ := parseNumber_tail_inv ['-'] r l rest (Or.inr rfl) h
      refine ⟨?_, hshape⟩
      rw [hsplit, htl]
      simp
    · simp only [parseNumber, if_neg hc] at h
      obtain ⟨htl, hsplit, hshape⟩ := parseNumber_tail_inv [] (c :: r) l rest (Or.inl rfl) h
      refine ⟨?_, hshape⟩
      simpa using htl


theorem parseNumber_build (l Y : List Char) (hl : NumShape l) (hY : numDelim Y = true) :
    parseNumber (l ++ Y) = some (String.mk l, Y) := by
  obtain ⟨sgn, ip, fp, ep, rfl, hsgn, hip, hfp, hep⟩ := hl
  have hepY1 : ∀ c t, ep ++ Y = c :: t → c.isDigit = false := by
    intro c t hct
    rcases hep with rfl | ⟨e0, sg, ds, rfl, he0, _, _, _⟩
    · rw [List.nil_append] at hct
      rw [hct] at hY
      exact (numDelim_head hY).1
    · rw [List.cons_append] at hct
      injection hct with h1 _
      subst h1
      rcases he0 with rfl | rfl <;> decide
  have hepY2 : ∀ c t, ep ++ Y = c :: t → c ≠ '.' := by
    intro c t hct
    rcases hep with rfl | ⟨e0, sg, ds, rfl, he0, _, _, _⟩
    · rw [List.nil_append] at hct
      rw [hct] at hY
      exact (numDelim_head hY).2.1
    · rw [List.cons_append] at hct
      injection hct with h1 _
      subst h1
      rcases he0 with rfl | rfl <;> decide
  have hfpY : ∀ c t, fp ++ (ep ++ Y) = c :: t → c.isDigit = false := by
    intro c t hct
    rcases hfp with rfl | ⟨ds, rfl, _, _⟩
    · rw [List.nil_append] at hct
      exact hepY1 c t hct
    · rw [List.cons_append] at hct
      injection hct with h1 _
      subst h1
      decide
  have h1 : parseIntPart (ip ++ (fp ++ (ep ++ Y))) = some (ip, fp ++ (ep ++ Y)) :=
    parseIntPart_build ip _ hip hfpY
  have h2 : parseFracPart (fp ++ (ep ++ Y)) = some (fp, ep ++ Y) :=
    parseFracPart_build fp _ hfp hepY1 hepY2
  have h3 : parseExpPart (ep ++ Y) = some (ep, Y) := parseExpPart_build ep Y hep hY
  rcases hsgn with rfl | rfl
  · rcases hip with rfl | ⟨c, ds, rfl, hcd, _, _⟩
    · simp only [List.cons_append, List.nil_append] at h1 ⊢
      simp only [List.nil_append, List.append_assoc]
      simp only [parseNumber, if_neg (by decide : ¬((('0' : Char) == '-') = true))]
      simp only [h1, h2, h3]
      simp
    · have hcm : ¬((c == '-') = true) := by
        simp [(digit_ne_special hcd).1]
      simp only [List.cons_append, List.nil_append] at h1 ⊢
      simp only [List.nil_append, List.append_assoc]
      simp only [parseNumber, if_neg hcm]
      simp only [h1, h2, h3]
      simp
  · simp only [List.cons_append, List.nil_append] at h1 ⊢
    simp only [List.nil_append, List.append_assoc]
    simp only [parseNumber, if_pos (by decide : ((('-' : Char) == '-') = true))]
    simp only [h1, h2, h3]
    simp


theorem parseNumber_self (cs : List Char) (l : String) (rest : List Char)
    (h : parseNumber cs = some (l, rest)) :
    parseNumber l.data = some (l, []) := by
  obtain ⟨_, hshape⟩ := parseNumber_inv cs l rest h
  have hb := parseNumber_build l.data [] hshape rfl
  rw [List.append_nil] at hb
  exact hb

theorem parseNumber_extend (l : String) (Y : List Char)
    (h : parseNumber l.data = some (l, []))
    (hY : numDelim Y = true) :
    parseNumber (l.data ++ Y) = some (l, Y) := by
  obtain ⟨_, hshape⟩ := parseNumber_inv l.data l [] h
  exact parseNumber_build l.data Y hshape hY

/-! ### Claim theorems -/

/-- C4: a syntactically valid but empty document resolves to defaultConfig,
whose license field is defaultLicenseConfig. -/
theorem spec_c4_empty_default (t : String) (h : parseJson t = some (.obj [])) :
    getConfigText t = .ok (.obj defaultConfig) [.logWarning binaryNameWarning]
    ∧ lookupKey defaultConfig "license" = some (.obj defaultLicenseConfig) := by
  constructor
  · show (match parseJson t with
      | none => Outcome.exitOne [.logError parseErrorMsg, .logException]
      | some v => getConfigFromParsed v) = _
    rw [h]
    rfl
  · rfl

/-- Witness for C4 at the document text consisting of an open and a close
brace. -/
theorem spec_c4_empty_default_witness :
    getConfigText "\x7b\x7d" = .ok (.obj defaultConfig) [.logWarning binaryNameWarning]
    ∧ lookupKey defaultConfig "license" = some (.obj defaultLicenseConfig) :=
  spec_c4_empty_default "\x7b\x7d" rfl

/-- C5: on the amo scenario document, resolution returns (no termination),
reports exactly the two errors for the missing amoId and version fields of
addon key foo, and keeps the addons entry for foo exactly as written, with
no field defaulting. -/
theorem spec_c5_amo_addon :
    (getConfigText amoScenarioDoc).isOk = true
    ∧ (getConfigText amoScenarioDoc).logOf.filter Event.isError
        = [.logError (missingPropMsg "amoId" "foo"),
           .logError (missingPropMsg "version" "foo")]
    ∧ configField2 (getConfigText amoScenarioDoc) "addons" "foo"
        = some (.obj [("platform", .str "amo"), ("id", .str "x")]) :=
  ⟨rfl, rfl, rfl⟩

/-- C9: a document whose version record lacks the product field is fatal:
the shallow top-level merge replaces the whole default version record, so
the product check sees `undefined` and exits with code 1. -/
theorem spec_c9_version_no_product (dfs vfs : List (String × JValue))
    (hnd : (dfs.map Prod.fst).Nodup)
    (hv : lookupKey dfs "version" = some (.obj vfs))
    (hp : lookupKey vfs "product" = none) :
    getConfigFromParsed (.obj dfs)
      = .exitOne (advisoryLog (.obj dfs) ++ [.logError (invalidProductMsg none)]) := by
  have hmv : lookupKey (mergedConfig (.obj dfs)) "version" = some (.obj vfs) := by
    show lookupKey (setKey (mergedTop (.obj dfs)) "license" _) "version" = _
    rw [lookupKey_setKey_ne _ _ _ _ (by decide)]
    exact lookupKey_mergeSpread_found _ dfs _ _ hnd hv
  have hpp : propGet (.obj vfs) "product" = none := hp
  rw [getConfigFromParsed_not_null _ (by simp),
    validateMerged_of_version _ _ (JValue.obj vfs) (by simp [hmv]) (by simp), hpp]
  rfl

/-- Witness for C9 at the example document of the claim. -/
theorem spec_c9_version_no_product_witness :
    parseJson "\x7b\"version\":\x7b\"version\":\"1.0\"\x7d\x7d"
      = some (.obj [("version", .obj [("version", .str "1.0")])])
    ∧ getConfigFromParsed (.obj [("version", .obj [("version", .str "1.0")])])
        = .exitOne (advisoryLog (.obj [("version", .obj [("version", .str "1.0")])])
          ++ [.logError (invalidProductMsg none)]) :=
  ⟨rfl, spec_c9_version_no_product [("version", .obj [("version", .str "1.0")])]
    [("version", .str "1.0")] (by simp) rfl rfl⟩

/-- C7: with no mock and no backing file, the first rawConfig call returns
the literal default text, emits exactly one warning and latches the flag;
any later call in the warned state emits none and returns the same text. -/
theorem spec_c7_warn_once (s : ProcState)
    (hm : s.mockConfig = "") (hf : s.fsFile = none)
    (hw : s.hasWarnedAboutConfig = false) :
    (rawConfig s).1 = "\x7b\x7d"
    ∧ (rawConfig s).2.1.filter Event.isWarning = [.logWarning missingConfigWarning]
    ∧ (rawConfig s).2.2 = { s with hasWarnedAboutConfig := true }
    ∧ ∀ s2 : ProcState, s2.mockConfig = "" → s2.fsFile = none →
        s2.hasWarnedAboutConfig = true →
        (rawConfig s2).1 = "\x7b\x7d"
        ∧ (rawConfig s2).2.1.filter Event.isWarning = []
        ∧ (rawConfig s2).2.2 = s2 := by
  have h1 : rawConfig s
      = ("\x7b\x7d", [.checkExists, .logWarning missingConfigWarning],
         { s with hasWarnedAboutConfig := true }) := by
    simp [rawConfig, hm, hf, hw]
  refine ⟨by rw [h1], by rw [h1]; rfl, by rw [h1], ?_⟩
  intro s2 hm2 hf2 hw2
  have h2 : rawConfig s2 = ("\x7b\x7d", [.checkExists], s2) := by
    simp [rawConfig, hm2, hf2, hw2]
  exact ⟨by rw [h2], by rw [h2]; rfl, by rw [h2]⟩

/-- Witness for C7: the fresh state warns once; the warned state is silent. -/
theorem spec_c7_warn_once_witness :
    (rawConfig ⟨false, "", none⟩).2.1.filter Event.isWarning
      = [.logWarning missingConfigWarning]
    ∧ (rawConfig ⟨true, "", none⟩).2.1.filter Event.isWarning = [] :=
  ⟨(spec_c7_warn_once ⟨false, "", none⟩ rfl rfl rfl).2.1,
   ((spec_c7_warn_once ⟨false, "", none⟩ rfl rfl rfl).2.2.2
      ⟨true, "", none⟩ rfl rfl rfl).2.1⟩

/-- C8 counterexample: the override is not permanent.  After installing a
non-empty mock and then calling setMockRawConfig with the empty string, the
next rawConfig call performs the file-existence check and returns the
missing-file default text, which is no override string. -/
theorem spec_c8_counterexample :
    (rawConfig (setMockRawConfig "" (setMockRawConfig "mockText"
        ⟨false, "", none⟩))).1 = "\x7b\x7d"
    ∧ Event.checkExists ∈ (rawConfig (setMockRawConfig "" (setMockRawConfig "mockText"
        ⟨false, "", none⟩))).2.1 := by
  decide

/-- C8 amended: while the installed mock is a non-empty string, rawConfig
returns it verbatim, performs no file-system access at all (no events), and
leaves the state unchanged; the override lasts only until a later
setMockRawConfig call replaces or clears it. -/
theorem spec_c8_mock_shortcircuit (s : ProcState) (c : String) (h : c ≠ "") :
    (setMockRawConfig c s).mockConfig = c
    ∧ rawConfig (setMockRawConfig c s) = (c, [], setMockRawConfig c s) := by
  refine ⟨rfl, ?_⟩
  simp [rawConfig, setMockRawConfig, h]

/-- Witness for the amended C8 at a concrete state and mock text. -/
theorem spec_c8_mock_shortcircuit_witness :
    (setMockRawConfig "mockText" ⟨false, "", none⟩).mockConfig = "mockText"
    ∧ rawConfig (setMockRawConfig "mockText" ⟨false, "", none⟩)
        = ("mockText", [], setMockRawConfig "mockText" ⟨false, "", none⟩) :=
  spec_c8_mock_shortcircuit ⟨false, "", none⟩ "mockText" (by decide)

/-- C10: setMockRawConfig with the empty string installs nothing and erases
any previous override: the state equals the never-mocked one, and rawConfig
then performs the existence check and returns the file contents or the
default text. -/
theorem spec_c10_clear_mock (s : ProcState) (prev : String) :
    setMockRawConfig "" (setMockRawConfig prev s) = setMockRawConfig "" s
    ∧ Event.checkExists ∈ (rawConfig (setMockRawConfig "" s)).2.1
    ∧ (rawConfig (setMockRawConfig "" s)).1 = s.fsFile.getD "\x7b\x7d" := by
  refine ⟨rfl, ?_, ?_⟩ <;>
    cases hf : s.fsFile <;>
      cases hw : s.hasWarnedAboutConfig <;>
        simp [rawConfig, setMockRawConfig, hf, hw]

/-- C3 counterexample: getConfig is not memoized.  The second call emits a
fresh readFile, and if the backing file changes between calls the second
call returns the new contents, not the first record. -/
theorem spec_c3_counterexample :
    Event.readFile ∈ (getConfig ((getConfig stateFileA).2)).1.logOf
    ∧ configStrField (getConfig stateFileA).1 "name" = some "a"
    ∧ configStrField
        (getConfig { (getConfig stateFileA).2 with fsFile := some fileTextB }).1
        "name" = some "b" := by
  refine ⟨by decide, rfl, rfl⟩

/-- C3 amended: getConfig itself re-runs the pipeline on every call — each
call with no mock set re-reads the backing file and resolves its current
text; only the module-level constant evaluated at load time is computed
once. -/
theorem spec_c3_no_memo (s : ProcState) (c : String)
    (hm : s.mockConfig = "") (hf : s.fsFile = some c) :
    (getConfig s).1 = (getConfigText c).withLog [.checkExists, .readFile]
    ∧ Event.readFile ∈ (getConfig s).1.logOf := by
  have hr : rawConfig s = (c, [.checkExists, .readFile], s) := by
    simp [rawConfig, hm, hf]
  constructor
  · show ((getConfigText (rawConfig s).1).withLog (rawConfig s).2.1, (rawConfig s).2.2).1 = _
    rw [hr]
  · show Event.readFile ∈ ((getConfigText (rawConfig s).1).withLog (rawConfig s).2.1,
        (rawConfig s).2.2).1.logOf
    rw [hr]
    simp [logOf_withLog]

/-- Witness for the amended C3 at the concrete file state. -/
theorem spec_c3_no_memo_witness :
    (getConfig stateFileA).1
      = (getConfigText "\x7b\"name\":\"a\"\x7d").withLog [.checkExists, .readFile]
    ∧ Event.readFile ∈ (getConfig stateFileA).1.logOf :=
  spec_c3_no_memo stateFileA "\x7b\"name\":\"a\"\x7d" rfl rfl

/-- C2: the default merge is shallow and non-recursive.  A top-level field
present in the document wholesale-replaces the default, an absent one keeps
the default, and license alone gets its own shallow merge against
defaultLicenseConfig (document license fields win, missing ones fall back
to the license defaults). -/
theorem spec_c2_merge_shallow (fs : List (String × JValue))
    (hnd : (fs.map Prod.fst).Nodup) :
    (∀ k v, k ≠ "license" → lookupKey fs k = some v →
        lookupKey (mergedConfig (.obj fs)) k = some v)
    ∧ (∀ k, k ≠ "license" → lookupKey fs k = none →
        lookupKey (mergedConfig (.obj fs)) k = lookupKey defaultConfig k)
    ∧ (∀ lfs, lookupKey fs "license" = some (.obj lfs) →
        (lfs.map Prod.fst).Nodup →
        ∃ L, lookupKey (mergedConfig (.obj fs)) "license" = some (.obj L)
          ∧ (∀ k2 v2, lookupKey lfs k2 = some v2 → lookupKey L k2 = some v2)
          ∧ (∀ k2, lookupKey lfs k2 = none →
              lookupKey L k2 = lookupKey defaultLicenseConfig k2)) := by
  refine ⟨?_, ?_, ?_⟩
  · intro k v hk h
    unfold mergedConfig mergedTop
    rw [lookupKey_setKey_ne _ _ _ _ hk]
    exact lookupKey_mergeSpread_found _ fs _ _ hnd h
  · intro k hk h
    unfold mergedConfig mergedTop
    rw [lookupKey_setKey_ne _ _ _ _ hk]
    exact lookupKey_mergeSpread_missing _ fs _ h
  · intro lfs hl hlnd
    have hM : lookupKey (mergedTop (.obj fs)) "license" = some (.obj lfs) :=
      lookupKey_mergeSpread_found _ fs _ _ hnd hl
    refine ⟨mergeSpread defaultLicenseConfig (.obj lfs), ?_, ?_, ?_⟩
    · unfold mergedConfig
      rw [lookupKey_setKey_self, hM]
      rfl
    · intro k2 v2 h2
      exact lookupKey_mergeSpread_found _ lfs _ _ hlnd h2
    · intro k2 h2
      exact lookupKey_mergeSpread_missing _ lfs _ h2

/-- Witness for C2: a document holding only a licenseType still receives
the default ignoredFiles, and its licenseType wins. -/
theorem spec_c2_merge_shallow_witness :
    ∃ L, lookupKey (mergedConfig
        (.obj [("license", .obj [("licenseType", .str "unknown")])])) "license"
        = some (.obj L)
      ∧ lookupKey L "ignoredFiles" = some (.arr [.str ".*\\.json"])
      ∧ lookupKey L "licenseType" = some (.str "unknown") := by
  obtain ⟨L, hL, hwin, hfall⟩ :=
    (spec_c2_merge_shallow [("license", .obj [("licenseType", .str "unknown")])]
      (by simp)).2.2 [("licenseType", .str "unknown")] rfl (by simp)
  refine ⟨L, hL, ?_, hwin "licenseType" (.str "unknown") rfl⟩
  rw [hfall "ignoredFiles" rfl]
  rfl

/-- C1 counterexample: the document `null` is syntactically valid JSON and
its merged record has a perfectly valid product (the default), yet
resolution returns no Config and does not reach process.exit(1): it dies on
the TypeError thrown by reading `.binaryName` off the null document, a
third terminating case outside the two the claim allows. -/
theorem spec_c1_counterexample :
    parseJson "null" = some JValue.null
    ∧ productValid (mergedProductOf JValue.null) = true
    ∧ (getConfigText "null").isOk = false
    ∧ (getConfigText "null").isExitOne = false
    ∧ (getConfigText "null").isThrown = true :=
  ⟨rfl, rfl, rfl, rfl, rfl⟩

/-- C1 amended: process.exit(1) fires exactly on unparseable JSON or on a
non-null document whose merged version is not null and whose
version.product fails the closed-set check; resolution additionally dies on
an uncaught TypeError exactly when the document is null, its merged version
is null, or (with a valid product) some addons entry is missing or null;
in every remaining case a Config is returned.  No Config is returned in any
terminating case. -/
theorem spec_c1_amended (t : String) :
    ((getConfigText t).isExitOne = true ↔
      parseJson t = none
      ∨ (∃ v, parseJson t = some v ∧ v ≠ .null ∧ mergedVersionOf v ≠ .null
          ∧ productValid (mergedProductOf v) = false))
    ∧ ((getConfigText t).isThrown = true ↔
      (∃ v, parseJson t = some v ∧
        (v = .null
         ∨ (v ≠ .null ∧ mergedVersionOf v = .null)
         ∨ (v ≠ .null ∧ mergedVersionOf v ≠ .null
            ∧ productValid (mergedProductOf v) = true
            ∧ addonsCrash (mergedAddonsOf v)))))
    ∧ ((getConfigText t).isOk = true ↔
      (∃ v, parseJson t = some v ∧ v ≠ .null ∧ mergedVersionOf v ≠ .null
        ∧ productValid (mergedProductOf v) = true
        ∧ ¬ addonsCrash (mergedAddonsOf v))) := by
  cases hp : parseJson t with
  | none =>
    have hg : getConfigText t = .exitOne [.logError parseErrorMsg, .logException] := by
      unfold getConfigText
      rw [hp]
    rw [hg]
    refine ⟨?_, ?_, ?_⟩ <;>
      simp [Outcome.isExitOne, Outcome.isThrown, Outcome.isOk]
  | some v =>
    have hg : getConfigText t = getConfigFromParsed v := by
      unfold getConfigText
      rw [hp]
    rw [hg]
    by_cases hvn : v = JValue.null
    · subst hvn
      have h0 : getConfigFromParsed JValue.null = .thrown [] := rfl
      rw [h0]
      refine ⟨?_, ?_, ?_⟩ <;>
        simp [Outcome.isExitOne, Outcome.isThrown, Outcome.isOk]
    · rw [getConfigFromParsed_not_null v hvn]
      by_cases hver : mergedVersionOf v = JValue.null
      · rw [validateMerged_null_version _ _ hver]
        refine ⟨?_, ?_, ?_⟩ <;>
          simp [Outcome.isExitOne, Outcome.isThrown, Outcome.isOk, hvn, hver]
      · by_cases hprodT : productValid (mergedProductOf v) = true
        · rw [validateMerged_good_product _ _ (mergedVersionOf v) rfl hver hprodT]
          have haddons : (lookupKey (mergedConfig v) "addons").getD JValue.null
              = mergedAddonsOf v := rfl
          cases hca : checkAddons (mergedAddonsOf v) (forInKeys (mergedAddonsOf v)) [] with
          | error e =>
            have hcrash : addonsCrash (mergedAddonsOf v) :=
              (checkAddons_error_iff _ _ _).mp ⟨e, hca⟩
            rw [addonsStep_error _ _ e (by rw [haddons, hca])]
            refine ⟨?_, ?_, ?_⟩ <;>
              simp [Outcome.isExitOne, Outcome.isThrown, Outcome.isOk,
                hvn, hver, hprodT, hcrash]
          | ok errs =>
            have hnocrash : ¬ addonsCrash (mergedAddonsOf v) := by
              intro hc
              obtain ⟨e, he⟩ := (checkAddons_error_iff _ _ _).mpr hc
              rw [hca] at he
              exact Except.noConfusion he
            rw [addonsStep_ok _ _ errs (by rw [haddons, hca])]
            refine ⟨?_, ?_, ?_⟩ <;>
              simp [Outcome.isExitOne, Outcome.isThrown, Outcome.isOk,
                hvn, hver, hprodT, hnocrash]
        · have hprodF : productValid (mergedProductOf v) = false :=
            Bool.not_eq_true _ ▸ Bool.eq_false_iff.mpr hprodT
          rw [validateMerged_bad_product _ _ (mergedVersionOf v) rfl hver hprodF]
          refine ⟨?_, ?_, ?_⟩ <;>
            simp [Outcome.isExitOne, Outcome.isThrown, Outcome.isOk,
              hvn, hver, hprodF]

/-! ### Round-trip groundwork: whitespace, heads and escapes -/

theorem skipWs_not_ws {c : Char} (t : List Char) (h : isWsChar c = false) :
    skipWs (c :: t) = c :: t := by
  simp [skipWs, h]

theorem skipWs_ws {c : Char} (t : List Char) (h : isWsChar c = true) :
    skipWs (c :: t) = skipWs t := by
  simp [skipWs, h]

theorem skipWs_length (l : List Char) : (skipWs l).length ≤ l.length := by
  induction l with
  | nil => simp [skipWs]
  | cons c t ih =>
    by_cases h : isWsChar c = true
    · rw [skipWs_ws t h]
      exact Nat.le_trans ih (Nat.le_succ _)
    · rw [skipWs_not_ws t (Bool.not_eq_true _ ▸ Bool.eq_false_iff.mpr h)]

theorem skipWs_idem (l : List Char) : skipWs (skipWs l) = skipWs l := by
  induction l with
  | nil => rfl
  | cons c t ih =>
    by_cases h : isWsChar c = true
    · rw [skipWs_ws t h, ih]
    · have h2 : isWsChar c = false := Bool.not_eq_true _ ▸ Bool.eq_false_iff.mpr h
      rw [skipWs_not_ws t h2, skipWs_not_ws t h2]

theorem skipWs_spaces (n : Nat) (l : List Char) :
    skipWs (List.replicate n ' ' ++ l) = skipWs l := by
  induction n with
  | zero => rfl
  | succ n ih =>
    rw [List.replicate_succ, List.cons_append, skipWs_ws _ (by decide)]
    exact ih

theorem skipWs_indent (d : Nat) (l : List Char) :
    skipWs (indentChars d ++ l) = skipWs l := skipWs_spaces (2 * d) l

theorem digit_misc {c : Char} (h : c.isDigit = true) :
    isWsChar c = false ∧ (c == ']') = false := by
  have hsp : c ≠ ' ' := by intro he; subst he; revert h; decide
  have hta : c ≠ '\t' := by intro he; subst he; revert h; decide
  have hnl : c ≠ '\n' := by intro he; subst he; revert h; decide
  have hcr : c ≠ '\r' := by intro he; subst he; revert h; decide
  have hbr : c ≠ ']' := by intro he; subst he; revert h; decide
  simp [isWsChar, hsp, hta, hnl, hcr, hbr]

theorem numShape_head {l : List Char} (h : NumShape l) :
    ∃ c t, l = c :: t ∧ (c = '-' ∨ c.isDigit = true) := by
  obtain ⟨sgn, ip, fp, ep, rfl, hsgn, hip, _, _⟩ := h
  rcases hsgn with rfl | rfl
  · rcases hip with rfl | ⟨c, ds, rfl, hcd, _, _⟩
    · exact ⟨'0', fp ++ ep, by simp, Or.inr (by decide)⟩
    · exact ⟨c, ds ++ (fp ++ ep), by simp, Or.inr hcd⟩
  · exact ⟨'-', ip ++ (fp ++ ep), by simp, Or.inl rfl⟩

theorem printVal_head (d : Nat) (v : JValue) (hv : Wf v) :
    ∃ c t, printVal d v = c :: t ∧ isWsChar c = false ∧ (c == ']') = false := by
  cases hv with
  | null => exact ⟨'n', ['u', 'l', 'l'], by simp [printVal], by decide, by decide⟩
  | jbool b =>
    cases b
    · exact ⟨'f', ['a', 'l', 's', 'e'], by simp [printVal], by decide, by decide⟩
    · exact ⟨'t', ['r', 'u', 'e'], by simp [printVal], by decide, by decide⟩
  | str s =>
    exact ⟨'"', escList s.data ++ ['"'], by simp [printVal], by decide, by decide⟩
  | num lit hl =>
    by_cases hfin : numFinite lit = true
    · obtain ⟨_, hshape⟩ := parseNumber_inv lit.data lit [] hl
      obtain ⟨c, t, hct, hc⟩ := numShape_head hshape
      refine ⟨c, t, by simp [printVal, hfin, hct], ?_, ?_⟩
      · rcases hc with rfl | hcd
        · decide
        · exact (digit_misc hcd).1
      · rcases hc with rfl | hcd
        · decide
        · exact (digit_misc hcd).2
    · exact ⟨'n', ['u', 'l', 'l'], by simp [printVal, hfin], by decide, by decide⟩
  | arr elems h =>
    cases elems with
    | nil => exact ⟨'[', [']'], by simp [printVal], by decide, by decide⟩
    | cons x xs =>
      exact ⟨'[', '\n' :: (printItems (d + 1) x xs ++ '\n' :: (indentChars d ++ [']'])),
        by simp [printVal], by decide, by decide⟩
  | obj fields hk hv2 =>
    cases fields with
    | nil => exact ⟨'\x7b', ['\x7d'], by simp [printVal], by decide, by decide⟩
    | cons p ps =>
      exact ⟨'\x7b', '\n' :: (printMembers (d + 1) p ps ++ '\n' :: (indentChars d ++ ['\x7d'])),
        by simp [printVal], by decide, by decide⟩


theorem hexNib_hexDigitChar : ∀ n, n < 16 → hexNib (hexDigitChar n) = some n := by
  decide


theorem parseStrChars_quote (t : List Char) : parseStrChars ('"' :: t) = some ([], t) := by
  rw [parseStrChars.eq_def]
  rfl

theorem parseStrChars_escq (r : List Char) :
    parseStrChars ('\\' :: '"' :: r) =
      (parseStrChars r).map (fun p => ('"' :: p.1, p.2)) := by
  rw [parseStrChars.eq_def]
  rfl

theorem parseStrChars_escbs (r : List Char) :
    parseStrChars ('\\' :: '\\' :: r) =
      (parseStrChars r).map (fun p => ('\\' :: p.1, p.2)) := by
  rw [parseStrChars.eq_def]
  rfl

theorem parseStrChars_escb (r : List Char) :
    parseStrChars ('\\' :: 'b' :: r) =
      (parseStrChars r).map (fun p => ('\x08' :: p.1, p.2)) := by
  rw [parseStrChars.eq_def]
  rfl

theorem parseStrChars_escf (r : List Char) :
    parseStrChars ('\\' :: 'f' :: r) =
      (parseStrChars r).map (fun p => ('\x0c' :: p.1, p.2)) := by
  rw [parseStrChars.eq_def]
  rfl

theorem parseStrChars_escn (r : List Char) :
    parseStrChars ('\\' :: 'n' :: r) =
      (parseStrChars r).map (fun p => ('\n' :: p.1, p.2)) := by
  rw [parseStrChars.eq_def]
  rfl

theorem parseStrChars_escr (r : List Char) :
    parseStrChars ('\\' :: 'r' :: r) =
      (parseStrChars r).map (fun p => ('\x0d' :: p.1, p.2)) := by
  rw [parseStrChars.eq_def]
  rfl

theorem parseStrChars_escU (a b c2 d : Char) (r : List Char) :
    parseStrChars ('\\' :: 'u' :: a :: b :: c2 :: d :: r) =
      (match hexNib a, hexNib b, hexNib c2, hexNib d with
       | some va, some vb, some vc, some vd =>
         (parseStrChars r).map
           (fun p => (uniChar (((va * 16 + vb) * 16 + vc) * 16 + vd) :: p.1, p.2))
       | _, _, _, _ => none) := by
  rw [parseStrChars.eq_def]
  rfl

theorem parseStrChars_plain (c : Char) (t : List Char)
    (h1 : (c == '"') = false) (h2 : (c == '\\') = false) (h3 : ¬c.toNat < 32) :
    parseStrChars (c :: t) = (parseStrChars t).map (fun p => (c :: p.1, p.2)) := by
  rw [parseStrChars.eq_def]
  simp [h1, h2, h3]

theorem parseStrChars_escList (s tail : List Char) :
    parseStrChars (escList s ++ '"' :: tail) = some (s, tail) := by
  induction s with
  | nil =>
    simp only [escList, List.nil_append]
    exact parseStrChars_quote tail
  | cons c cs ih =>
    by_cases h1 : c = '"'
    · subst h1
      simp only [escList]
      rw [show escChar '"' = ['\\', '"'] from rfl]
      simp only [List.cons_append, List.nil_append]
      rw [parseStrChars_escq, ih]
      rfl
    · by_cases h2 : c = '\\'
      · subst h2
        simp only [escList]
        rw [show escChar '\\' = ['\\', '\\'] from rfl]
        simp only [List.cons_append, List.nil_append]
        rw [parseStrChars_escbs, ih]
        rfl
      · by_cases h3 : c = '\x08'
        · subst h3
          simp only [escList]
          rw [show escChar '\x08' = ['\\', 'b'] from rfl]
          simp only [List.cons_append, List.nil_append]
          rw [parseStrChars_escb, ih]
          rfl
        · by_cases h4 : c = '\x0c'
          · subst h4
            simp only [escList]
            rw [show escChar '\x0c' = ['\\', 'f'] from rfl]
            simp only [List.cons_append, List.nil_append]
            rw [parseStrChars_escf, ih]
            rfl
          · by_cases h5 : c = '\n'
            · subst h5
              simp only [escList]
              rw [show escChar '\n' = ['\\', 'n'] from rfl]
              simp only [List.cons_append, List.nil_append]
              rw [parseStrChars_escn, ih]
              rfl
            · by_cases h6 : c = '\x0d'
              · subst h6
                simp only [escList]
                rw [show escChar '\x0d' = ['\\', 'r'] from rfl]
                simp only [List.cons_append, List.nil_append]
                rw [parseStrChars_escr, ih]
                rfl
              · have hq : (c == '"') = false := beq_eq_false_iff_ne.mpr h1
                have hb : (c == '\\') = false := beq_eq_false_iff_ne.mpr h2
                have hq2 : ¬((c == '"') = true) := by simp [hq]
                have hb2 : ¬((c == '\\') = true) := by simp [hb]
                have h32 : ¬((c == '\x08') = true) := by simp [h3]
                have h42 : ¬((c == '\x0c') = true) := by simp [h4]
                have h52 : ¬((c == '\n') = true) := by simp [h5]
                have h62 : ¬((c == '\x0d') = true) := by simp [h6]
                by_cases h7 : c.toNat < 32
                · simp only [escList, escChar, if_neg hq2, if_neg hb2,
                    if_neg h32, if_neg h42, if_neg h52, if_neg h62, if_pos h7]
                  simp only [List.cons_append, List.nil_append]
                  rw [parseStrChars_escU]
                  have hhi : c.toNat / 16 < 16 := by omega
                  have hlo : c.toNat % 16 < 16 := by omega
                  rw [hexNib_hexDigitChar _ hhi, hexNib_hexDigitChar _ hlo,
                    show hexNib '0' = some 0 from by decide]
                  simp only [ih, Option.map_some]
                  have hn : ((0 * 16 + 0) * 16 + c.toNat / 16) * 16 + c.toNat % 16
                      = c.toNat := by omega
                  rw [hn]
                  simp [uniChar, Char.ofNat_toNat]
                · simp only [escList, escChar, if_neg hq2, if_neg hb2,
                    if_neg h32, if_neg h42, if_neg h52, if_neg h62, if_neg h7]
                  simp only [List.cons_append, List.nil_append]
                  rw [parseStrChars_plain c _ hq hb h7, ih]
                  rfl


theorem numDelim_printedTail (d0 : Nat) (xs : List JValue) (rest : List Char) :
    numDelim (printedTail d0 xs rest) = true := by
  cases xs <;> rfl

theorem numDelim_printedMemTail (d0 : Nat) (ps : List (String × JValue))
    (rest : List Char) :
    numDelim (printedMemTail d0 ps rest) = true := by
  cases ps <;> rfl

theorem printOneMember_eq (d : Nat) (p : String × JValue) :
    printOneMember d p = indentChars d ++ printKV d p := by
  obtain ⟨k, v⟩ := p
  simp [printOneMember, printKV, List.append_assoc]

theorem printArr_decomp (d0 : Nat) (x : JValue) (xs : List JValue) (rest : List Char) :
    (printItems (d0 + 1) x xs ++ '\n' :: (indentChars d0 ++ [']'])) ++ rest
      = indentChars (d0 + 1) ++ (printVal (d0 + 1) x ++ printedTail d0 xs rest) := by
  induction xs generalizing x with
  | nil => simp [printItems, printedTail, List.append_assoc]
  | cons y ys ih =>
    simp only [printItems, printedTail]
    rw [← ih y]
    simp [List.append_assoc]

theorem printObj_decomp (d0 : Nat) (p : String × JValue)
    (ps : List (String × JValue)) (rest : List Char) :
    (printMembers (d0 + 1) p ps ++ '\n' :: (indentChars d0 ++ ['\x7d'])) ++ rest
      = indentChars (d0 + 1) ++ (printKV (d0 + 1) p ++ printedMemTail d0 ps rest) := by
  induction ps generalizing p with
  | nil =>
    simp only [printMembers, printedMemTail, printOneMember_eq]
    simp [List.append_assoc]
  | cons q qs ih =>
    simp only [printMembers, printedMemTail, printOneMember_eq]
    rw [← ih q]
    simp [List.append_assoc]


theorem numFree_arr {xs : List JValue} (h : numFree (.arr xs) = true) :
    ∀ x ∈ xs, numFree x = true := by
  simp only [numFree] at h
  induction xs with
  | nil => intro x hx; simp at hx
  | cons y ys ih =>
    simp only [numFreeList, Bool.and_eq_true] at h
    intro x hx
    rcases List.mem_cons.mp hx with rfl | hx2
    · exact h.1
    · exact ih h.2 x hx2

theorem numFree_obj {fs : List (String × JValue)} (h : numFree (.obj fs) = true) :
    ∀ p ∈ fs, numFree p.2 = true := by
  simp only [numFree] at h
  induction fs with
  | nil => intro p hp; simp at hp
  | cons q qs ih =>
    obtain ⟨a, b⟩ := q
    simp only [numFreeFields, Bool.and_eq_true] at h
    intro p hp
    rcases List.mem_cons.mp hp with rfl | hp2
    · exact h.1
    · exact ih h.2 p hp2

theorem rt_all : ∀ fuel : Nat,
    (∀ d v rest X, Wf v → numFree v = true → numDelim rest = true →
      skipWs X = printVal d v ++ rest → X.length < fuel →
      parseVal fuel X = some (v, rest))
    ∧ (∀ d0 x xs acc rest X, Wf x → numFree x = true →
      (∀ y ∈ xs, Wf y) → (∀ y ∈ xs, numFree y = true) →
      skipWs X = printVal (d0 + 1) x ++ printedTail d0 xs rest →
      X.length + 1 < fuel →
      parseItems fuel X acc = some (.arr (acc ++ x :: xs), rest))
    ∧ (∀ d0 p ps acc rest X, Wf p.2 → numFree p.2 = true →
      (∀ q ∈ ps, Wf q.2) → (∀ q ∈ ps, numFree q.2 = true) →
      ((acc ++ p :: ps).map Prod.fst).Nodup →
      skipWs X = printKV (d0 + 1) p ++ printedMemTail d0 ps rest →
      X.length + 1 < fuel →
      parseMembers fuel X acc = some (.obj (acc ++ p :: ps), rest)) := by
  intro fuel
  induction fuel with
  | zero =>
    refine ⟨?_, ?_, ?_⟩
    · intro d v rest X _ _ _ _ hlen
      omega
    · intro d0 x xs acc rest X _ _ _ _ _ hlen
      omega
    · intro d0 p ps acc rest X _ _ _ _ _ _ hlen
      omega
  | succ f ih =>
    obtain ⟨ihV, ihI, ihM⟩ := ih
    refine ⟨?_, ?_, ?_⟩
    · intro d v rest X hv hnf hrest hX hlen
      cases hv with
      | null =>
        simp only [printVal, List.cons_append, List.nil_append] at hX
        simp only [parseVal, hX]
      | jbool b =>
        cases b
        · simp only [printVal, List.cons_append, List.nil_append] at hX
          simp only [parseVal, hX]
        · simp only [printVal, List.cons_append, List.nil_append] at hX
          simp only [parseVal, hX]
      | str s =>
        simp only [printVal] at hX
        rw [show ('"' :: (escList s.data ++ ['"'])) ++ rest
            = '"' :: (escList s.data ++ '"' :: rest) from by simp] at hX
        have hps := parseStrChars_escList s.data rest
        simp only [parseVal, hX, hps]
      | num lit hl =>
        simp only [numFree] at hnf
        exact Bool.noConfusion hnf
      | arr elems helems =>
        cases elems with
        | nil =>
          simp only [printVal, List.cons_append, List.nil_append] at hX
          simp only [parseVal, hX]
          rw [skipWs_not_ws _ (by decide)]
          rfl
        | cons x xs =>
          simp only [printVal] at hX
          rw [List.cons_append, List.cons_append, printArr_decomp] at hX
          obtain ⟨c1, t1, hc1, hw1, hb1⟩ :=
            printVal_head (d + 1) x (helems x (List.mem_cons_self x xs))
          have hinner : skipWs ('\n' :: (indentChars (d + 1)
                ++ (c1 :: (t1 ++ printedTail d xs rest))))
              = c1 :: (t1 ++ printedTail d xs rest) := by
            rw [skipWs_ws _ (by decide), skipWs_indent, skipWs_not_ws _ hw1]
          have hlX := congrArg List.length hX
          simp only [List.length_cons, List.length_append, hc1] at hlX
          have hsl := skipWs_length X
          have hfuel : (c1 :: (t1 ++ printedTail d xs rest)).length + 1 < f := by
            simp only [List.length_cons, List.length_append]
            omega
          have happ := ihI d x xs [] rest (c1 :: (t1 ++ printedTail d xs rest))
            (helems x (List.mem_cons_self x xs))
            (numFree_arr hnf x (List.mem_cons_self x xs))
            (fun y hy => helems y (List.mem_cons_of_mem x hy))
            (fun y hy => numFree_arr hnf y (List.mem_cons_of_mem x hy))
            (by rw [skipWs_not_ws _ hw1, ← List.cons_append, ← hc1]) hfuel
          simp only [parseVal, hX, hc1, List.cons_append, hinner]
          rw [if_neg (by simp [hb1])]
          simpa using happ
      | obj fields hk hvals =>
        cases fields with
        | nil =>
          simp only [printVal, List.cons_append, List.nil_append] at hX
          simp only [parseVal, hX]
          rw [skipWs_not_ws _ (by decide)]
          rfl
        | cons p ps =>
          simp only [printVal] at hX
          rw [List.cons_append, List.cons_append, printObj_decomp] at hX
          rw [show printKV (d + 1) p ++ printedMemTail d ps rest
              = '"' :: ((escList p.1.data ++ ('"' :: (':' :: (' ' :: printVal (d + 1) p.2))))
                ++ printedMemTail d ps rest) from by
            rw [printKV, List.cons_append]] at hX
          have hinner : skipWs ('\n' :: (indentChars (d + 1)
                ++ ('"' :: ((escList p.1.data ++ ('"' :: (':' :: (' ' :: printVal (d + 1) p.2))))
                  ++ printedMemTail d ps rest))))
              = '"' :: ((escList p.1.data ++ ('"' :: (':' :: (' ' :: printVal (d + 1) p.2))))
                ++ printedMemTail d ps rest) := by
            rw [skipWs_ws _ (by decide), skipWs_indent, skipWs_not_ws _ (by decide)]
          have hlX := congrArg List.length hX
          simp only [List.length_cons, List.length_append] at hlX
          have hsl := skipWs_length X
          have hfuel : ('"' :: ((escList p.1.data
                ++ ('"' :: (':' :: (' ' :: printVal (d + 1) p.2))))
                ++ printedMemTail d ps rest)).length + 1 < f := by
            simp only [List.length_cons, List.length_append]
            omega
          have happ := ihM d p ps [] rest ('"' :: ((escList p.1.data
              ++ ('"' :: (':' :: (' ' :: printVal (d + 1) p.2))))
              ++ printedMemTail d ps rest))
            (hvals p (List.mem_cons_self p ps))
            (numFree_obj hnf p (List.mem_cons_self p ps))
            (fun q hq => hvals q (List.mem_cons_of_mem p hq))
            (fun q hq => numFree_obj hnf q (List.mem_cons_of_mem p hq))
            (by simpa using hk)
            (by rw [skipWs_not_ws _ (by decide), printKV, List.cons_append]) hfuel
          simp only [parseVal, hX, hinner]
          rw [if_neg (by decide)]
          simpa using happ
    · intro d0 x xs acc rest X hx hnfx hxs hnfxs hX hlen
      have hpv := ihV (d0 + 1) x (printedTail d0 xs rest) X hx hnfx
        (numDelim_printedTail d0 xs rest) hX (by omega)
      cases xs with
      | nil =>
        have hsw : skipWs (printedTail d0 [] rest) = ']' :: rest := by
          simp only [printedTail]
          rw [skipWs_ws _ (by decide), skipWs_indent, skipWs_not_ws _ (by decide)]
        simp only [parseItems, hpv, hsw]
      | cons y ys =>
        obtain ⟨c1, t1, hc1, hw1, _⟩ :=
          printVal_head (d0 + 1) y (hxs y (List.mem_cons_self y ys))
        obtain ⟨c0, t0, hc0, _, _⟩ := printVal_head (d0 + 1) x hx
        have hsw : skipWs (printedTail d0 (y :: ys) rest)
            = ',' :: ('\n' :: (indentChars (d0 + 1)
              ++ (printVal (d0 + 1) y ++ printedTail d0 ys rest))) := by
          simp only [printedTail]
          rw [skipWs_not_ws _ (by decide)]
        have hXlen := congrArg List.length hX
        simp only [printedTail, List.length_cons, List.length_append, hc0, hc1] at hXlen
        have hsl := skipWs_length X
        have hfuel : ('\n' :: (indentChars (d0 + 1)
            ++ (printVal (d0 + 1) y ++ printedTail d0 ys rest))).length + 1 < f := by
          simp only [List.length_cons, List.length_append, hc1]
          omega
        have happ := ihI d0 y ys (acc ++ [x]) rest
          ('\n' :: (indentChars (d0 + 1) ++ (printVal (d0 + 1) y ++ printedTail d0 ys rest)))
          (hxs y (List.mem_cons_self y ys))
          (hnfxs y (List.mem_cons_self y ys))
          (fun z hz => hxs z (List.mem_cons_of_mem y hz))
          (fun z hz => hnfxs z (List.mem_cons_of_mem y hz))
          (by rw [skipWs_ws _ (by decide), skipWs_indent, hc1, List.cons_append,
            skipWs_not_ws _ hw1, ← List.cons_append, ← hc1]) hfuel
        simp only [parseItems, hpv, hsw]
        rw [happ]
        simp
    · intro d0 p ps acc rest X hp hnfp hps hnfps hnd hX hlen
      obtain ⟨cv, tv, hcv, hwv, _⟩ := printVal_head (d0 + 1) p.2 hp
      rw [show printKV (d0 + 1) p ++ printedMemTail d0 ps rest
          = '"' :: ((escList p.1.data ++ ('"' :: (':' :: (' ' :: printVal (d0 + 1) p.2))))
            ++ printedMemTail d0 ps rest) from by
        rw [printKV, List.cons_append]] at hX
      have hpsc : parseStrChars ((escList p.1.data
            ++ ('"' :: (':' :: (' ' :: printVal (d0 + 1) p.2))))
            ++ printedMemTail d0 ps rest)
          = some (p.1.data, ':' :: (' ' :: (printVal (d0 + 1) p.2
              ++ printedMemTail d0 ps rest))) := by
        rw [show (escList p.1.data ++ ('"' :: (':' :: (' ' :: printVal (d0 + 1) p.2))))
              ++ printedMemTail d0 ps rest
            = escList p.1.data ++ ('"' :: (':' :: (' ' :: (printVal (d0 + 1) p.2
              ++ printedMemTail d0 ps rest)))) from by simp [List.append_assoc]]
        exact parseStrChars_escList p.1.data _
      have hXlen := congrArg List.length hX
      simp only [List.length_cons, List.length_append, hcv] at hXlen
      have hsl := skipWs_length X
      have hfuelV : (' ' :: (printVal (d0 + 1) p.2
          ++ printedMemTail d0 ps rest)).length < f := by
        simp only [List.length_cons, List.length_append, hcv]
        omega
      have hpv := ihV (d0 + 1) p.2 (printedMemTail d0 ps rest)
        (' ' :: (printVal (d0 + 1) p.2 ++ printedMemTail d0 ps rest)) hp hnfp
        (numDelim_printedMemTail d0 ps rest)
        (by rw [skipWs_ws _ (by decide), hcv, List.cons_append,
          skipWs_not_ws _ hwv, ← List.cons_append, ← hcv]) hfuelV
      have hcolon : skipWs (':' :: (' ' :: (printVal (d0 + 1) p.2
          ++ printedMemTail d0 ps rest)))
          = ':' :: (' ' :: (printVal (d0 + 1) p.2 ++ printedMemTail d0 ps rest)) :=
        skipWs_not_ws _ (by decide)
      have hkey : p.1 ∉ List.map Prod.fst acc := by
        intro hmem
        rw [List.map_append, List.nodup_append] at hnd
        exact hnd.2.2 hmem (by simp)
      have hset : setKey acc (String.mk p.1.data) p.2 = acc ++ [p] := by
        rw [show String.mk p.1.data = p.1 from rfl,
          setKey_of_not_mem acc p.1 p.2 hkey]
      cases ps with
      | nil =>
        have hsw : skipWs (printedMemTail d0 [] rest) = '\x7d' :: rest := by
          simp only [printedMemTail]
          rw [skipWs_ws _ (by decide), skipWs_indent, skipWs_not_ws _ (by decide)]
        simp only [parseMembers, hX, hpsc, hcolon, hpv, hsw, hset]
      | cons q qs =>
        have hsw : skipWs (printedMemTail d0 (q :: qs) rest)
            = ',' :: ('\n' :: (indentChars (d0 + 1)
              ++ (printKV (d0 + 1) q ++ printedMemTail d0 qs rest))) := by
          simp only [printedMemTail]
          rw [skipWs_not_ws _ (by decide)]
        have hmtlen := congrArg List.length
          (show printedMemTail d0 (q :: qs) rest
            = ',' :: ('\n' :: (indentChars (d0 + 1)
              ++ (printKV (d0 + 1) q ++ printedMemTail d0 qs rest))) from rfl)
        simp only [List.length_cons, List.length_append] at hmtlen
        have hfuel : ('\n' :: (indentChars (d0 + 1)
            ++ (printKV (d0 + 1) q ++ printedMemTail d0 qs rest))).length + 1 < f := by
          simp only [List.length_cons, List.length_append]
          omega
        have hnd2 : (List.map Prod.fst ((acc ++ [p]) ++ q :: qs)).Nodup := by
          rw [List.append_assoc, List.cons_append, List.nil_append]
          exact hnd
        have happ := ihM d0 q qs (acc ++ [p]) rest
          ('\n' :: (indentChars (d0 + 1)
            ++ (printKV (d0 + 1) q ++ printedMemTail d0 qs rest)))
          (hps q (List.mem_cons_self q qs))
          (hnfps q (List.mem_cons_self q qs))
          (fun z hz => hps z (List.mem_cons_of_mem q hz))
          (fun z hz => hnfps z (List.mem_cons_of_mem q hz))
          hnd2
          (by rw [skipWs_ws _ (by decide), skipWs_indent, printKV, List.cons_append,
            skipWs_not_ws _ (by decide), ← List.cons_append, ← printKV]) hfuel
        simp only [parseMembers, hX, hpsc, hcolon, hpv, hsw, hset]
        rw [happ]
        simp


theorem wf_vals_setKey (l : List (String × JValue)) (k : String) (w : JValue)
    (hl : ∀ p ∈ l, Wf p.2) (hw : Wf w) : ∀ p ∈ setKey l k w, Wf p.2 := by
  induction l with
  | nil =>
    intro p hp
    simp only [setKey, List.mem_singleton] at hp
    subst hp
    exact hw
  | cons q rest ih =>
    obtain ⟨a, b⟩ := q
    by_cases ha : a = k
    · intro p hp
      simp only [setKey, if_pos ha, List.mem_cons] at hp
      rcases hp with rfl | hp2
      · exact hw
      · exact hl p (List.mem_cons_of_mem _ hp2)
    · intro p hp
      simp only [setKey, if_neg ha, List.mem_cons] at hp
      rcases hp with rfl | hp2
      · exact hl (a, b) (List.mem_cons_self _ _)
      · exact ih (fun r hr => hl r (List.mem_cons_of_mem _ hr)) p hp2

theorem parseJson_stringify (v : JValue) (hv : Wf v) (hnf : numFree v = true) :
    parseJson (stringifyIndent v) = some v := by
  obtain ⟨c0, t0, hc0, hw0, _⟩ := printVal_head 0 v hv
  have h := (rt_all ((printVal 0 v).length + 1)).1 0 v [] (printVal 0 v) hv hnf rfl
    (by rw [List.append_nil, hc0]; exact skipWs_not_ws _ hw0)
    (Nat.lt_succ_self _)
  unfold parseJson
  rw [show (stringifyIndent v).data = printVal 0 v from rfl,
    show (stringifyIndent v).length = (printVal 0 v).length from rfl]
  simp only [h]
  rfl

theorem parse_wf_all : ∀ fuel : Nat,
    (∀ cs v rest, parseVal fuel cs = some (v, rest) → Wf v)
    ∧ (∀ cs acc v rest, (∀ x ∈ acc, Wf x) →
        parseItems fuel cs acc = some (v, rest) → Wf v)
    ∧ (∀ cs acc v rest, ((acc.map Prod.fst).Nodup) → (∀ p ∈ acc, Wf p.2) →
        parseMembers fuel cs acc = some (v, rest) → Wf v) := by
  intro fuel
  induction fuel with
  | zero =>
    refine ⟨?_, ?_, ?_⟩
    · intro cs v rest h
      simp only [parseVal] at h
      exact Option.noConfusion h
    · intro cs acc v rest _ h
      simp only [parseItems] at h
      exact Option.noConfusion h
    · intro cs acc v rest _ _ h
      simp only [parseMembers] at h
      exact Option.noConfusion h
  | succ f ih =>
    obtain ⟨ihV, ihI, ihM⟩ := ih
    refine ⟨?_, ?_, ?_⟩
    · intro cs v rest h
      simp only [parseVal] at h
      split at h
      · injection h with h1
        injection h1 with hv hr
        subst hv
        exact Wf.null
      · injection h with h1
        injection h1 with hv hr
        subst hv
        exact Wf.jbool true
      · injection h with h1
        injection h1 with hv hr
        subst hv
        exact Wf.jbool false
      · split at h
        · exact Option.noConfusion h
        · injection h with h1
          injection h1 with hv hr
          subst hv
          exact Wf.str _
      · split at h
        · exact Option.noConfusion h
        · split at h
          · injection h with h1
            injection h1 with hv hr
            subst hv
            exact Wf.arr [] (by intro x hx; simp at hx)
          · exact ihI _ [] v rest (by intro x hx; simp at hx) h
      · split at h
        · exact Option.noConfusion h
        · split at h
          · injection h with h1
            injection h1 with hv hr
            subst hv
            exact Wf.obj [] (by simp) (by intro p hp; simp at hp)
          · exact ihM _ [] v rest (by simp) (by intro p hp; simp at hp) h
      · cases hpn : parseNumber (skipWs cs) with
        | none =>
          rw [hpn] at h
          exact Option.noConfusion h
        | some pr =>
          obtain ⟨l, r⟩ := pr
          rw [hpn] at h
          rw [show Option.map (fun p => (JValue.num p.1, p.2)) (some (l, r))
              = some (JValue.num l, r) from rfl] at h
          injection h with h1
          injection h1 with hv hr
          subst hv
          exact Wf.num l (parseNumber_self (skipWs cs) l r hpn)
    · intro cs acc v rest hacc h
      simp only [parseItems] at h
      split at h
      · exact Option.noConfusion h
      · rename_i pr w r hw
        split at h
        · exact ihI _ (acc ++ [w]) v rest
            (by
              intro x hx
              rcases List.mem_append.mp hx with hx | hx
              · exact hacc x hx
              · rw [List.mem_singleton.mp hx]
                exact ihV _ w r hw) h
        · injection h with h1
          injection h1 with hv hr
          subst hv
          refine Wf.arr _ ?_
          intro x hx
          rcases List.mem_append.mp hx with hx | hx
          · exact hacc x hx
          · rw [List.mem_singleton.mp hx]
            exact ihV _ w r hw
        · exact Option.noConfusion h
    · intro cs acc v rest hnd hacc h
      simp only [parseMembers] at h
      split at h
      · split at h
        · exact Option.noConfusion h
        · rename_i pr kc r1 hkc
          split at h
          · split at h
            · exact Option.noConfusion h
            · rename_i pr2 w r3 hw
              split at h
              · exact ihM _ (setKey acc (String.mk kc) w) v rest
                  (nodup_setKey acc (String.mk kc) w hnd)
                  (wf_vals_setKey acc (String.mk kc) w hacc (ihV _ w r3 hw)) h
              · injection h with h1
                injection h1 with hv hr
                subst hv
                exact Wf.obj _ (nodup_setKey acc (String.mk kc) w hnd)
                  (wf_vals_setKey acc (String.mk kc) w hacc (ihV _ w r3 hw))
              · exact Option.noConfusion h
          · exact Option.noConfusion h
      · exact Option.noConfusion h

theorem parseJson_wf (t : String) (v : JValue) (h : parseJson t = some v) : Wf v := by
  unfold parseJson at h
  cases hpv : parseVal (t.length + 1) t.data with
  | none =>
    rw [hpv] at h
    exact Option.noConfusion h
  | some pr =>
    obtain ⟨w, rest⟩ := pr
    simp only [hpv] at h
    by_cases hsw : skipWs rest = []
    · rw [if_pos hsw] at h
      injection h with h1
      subst h1
      exact (parse_wf_all (t.length + 1)).1 t.data _ rest hpv
    · rw [if_neg hsw] at h
      exact Option.noConfusion h


theorem wf_contrib (w : JValue) (hw : Wf w) : ∀ p ∈ contrib w, Wf p.2 := by
  cases hw with
  | null => intro p hp; simp [contrib] at hp
  | jbool b => intro p hp; simp [contrib] at hp
  | num lit h => intro p hp; simp [contrib] at hp
  | str s =>
    intro p hp
    simp only [contrib, List.mem_map] at hp
    obtain ⟨q, _, rfl⟩ := hp
    exact Wf.str _
  | arr elems h =>
    intro p hp
    simp only [contrib, List.mem_map] at hp
    obtain ⟨q, hq, rfl⟩ := hp
    rw [List.mem_enum_iff_get?] at hq
    exact h q.2 (List.get?_mem hq)
  | obj fields hk hv =>
    intro p hp
    exact hv p hp

theorem wf_vals_foldl (gs : List (String × JValue)) :
    ∀ base : List (String × JValue), (∀ p ∈ base, Wf p.2) → (∀ p ∈ gs, Wf p.2) →
    ∀ p ∈ gs.foldl (fun acc q => setKey acc q.1 q.2) base, Wf p.2 := by
  induction gs with
  | nil =>
    intro base hb _ p hp
    exact hb p hp
  | cons g gs ih =>
    intro base hb hg p hp
    simp only [List.foldl_cons] at hp
    exact ih (setKey base g.1 g.2)
      (wf_vals_setKey base g.1 g.2 hb (hg g (List.mem_cons_self g gs)))
      (fun r hr => hg r (List.mem_cons_of_mem g hr)) p hp

theorem wf_vals_mergeSpread (base : List (String × JValue)) (w : JValue)
    (hb : ∀ p ∈ base, Wf p.2) (hw : Wf w) :
    ∀ p ∈ mergeSpread base w, Wf p.2 :=
  wf_vals_foldl (contrib w) base hb (wf_contrib w hw)

theorem wf_lookup (fs : List (String × JValue)) (k : String) (v : JValue)
    (hfs : ∀ p ∈ fs, Wf p.2) (h : lookupKey fs k = some v) : Wf v := by
  induction fs with
  | nil => exact Option.noConfusion h
  | cons p rest ih =>
    simp only [lookupKey] at h
    split at h
    · injection h with h1
      subst h1
      exact hfs p (List.mem_cons_self p rest)
    · exact ih (fun r hr => hfs r (List.mem_cons_of_mem p hr)) h

theorem wf_defaultLicense : ∀ p ∈ defaultLicenseConfig, Wf p.2 := by
  intro p hp
  simp only [defaultLicenseConfig, List.mem_cons, List.not_mem_nil, or_false] at hp
  rcases hp with rfl | rfl
  · exact Wf.arr _ (by
      intro x hx
      simp only [List.mem_cons, List.not_mem_nil, or_false] at hx
      subst hx
      exact Wf.str _)
  · exact Wf.str _

theorem wf_defaultConfig : ∀ p ∈ defaultConfig, Wf p.2 := by
  intro p hp
  simp only [defaultConfig, List.mem_cons, List.not_mem_nil, or_false] at hp
  rcases hp with rfl | rfl | rfl | rfl | rfl | rfl | rfl | rfl | rfl
  · exact Wf.str _
  · exact Wf.str _
  · exact Wf.str _
  · exact Wf.str _
  · exact Wf.obj _ (by simp) (by
      intro q hq
      simp only [List.mem_cons, List.not_mem_nil, or_false] at hq
      subst hq
      exact Wf.str _)
  · exact Wf.obj _ (by simp) (by
      intro q hq
      simp only [List.mem_cons, List.not_mem_nil, or_false] at hq
      rcases hq with rfl | rfl
      · exact Wf.jbool _
      · exact Wf.jbool _)
  · exact Wf.obj _ (by simp) (by intro q hq; simp at hq)
  · exact Wf.obj _ (by simp) (by intro q hq; simp at hq)
  · exact Wf.obj _ (by
      simp [defaultLicenseConfig]) (fun q hq => wf_defaultLicense q hq)

theorem mergedConfig_wf (fp : JValue) (hfp : Wf fp) : Wf (.obj (mergedConfig fp)) := by
  have hm1 : ∀ p ∈ mergedTop fp, Wf p.2 :=
    wf_vals_mergeSpread defaultConfig fp wf_defaultConfig hfp
  have hlic : Wf ((lookupKey (mergedTop fp) "license").getD .null) := by
    cases hl : lookupKey (mergedTop fp) "license" with
    | none => exact Wf.null
    | some w =>
      simp only [Option.getD_some]
      exact wf_lookup (mergedTop fp) "license" w hm1 hl
  have hm2 : ∀ p ∈ mergeSpread defaultLicenseConfig
      ((lookupKey (mergedTop fp) "license").getD .null), Wf p.2 :=
    wf_vals_mergeSpread defaultLicenseConfig _ wf_defaultLicense hlic
  have hlicobj : Wf (.obj (mergeSpread defaultLicenseConfig
      ((lookupKey (mergedTop fp) "license").getD .null))) :=
    Wf.obj _ (licenseMerge_nodup _) hm2
  rw [mergedConfig_eq_setKey]
  exact Wf.obj _ (mergedConfig_eq_setKey fp ▸ mergedConfig_nodup fp)
    (wf_vals_setKey (mergedTop fp) "license" _ hm1 hlicobj)


theorem printVal_num_overflow (d : Nat) (lit : String) (h : numFinite lit = false) :
    printVal d (.num lit) = printVal d .null := by
  simp [printVal, h]

theorem printMembers_numnull (d : Nat) (k lit : String) (h : numFinite lit = false) :
    ∀ (p : String × JValue) (ps : List (String × JValue)),
    printMembers d p (ps ++ [(k, .num lit)]) = printMembers d p (ps ++ [(k, .null)]) := by
  intro p ps
  induction ps generalizing p with
  | nil =>
    simp only [List.nil_append, printMembers, printOneMember]
    rw [printVal_num_overflow d lit h]
  | cons r rs ih =>
    simp only [List.cons_append, printMembers]
    rw [ih r]

theorem stringify_overflow_last (k lit : String) (h : numFinite lit = false)
    (p : String × JValue) (ps : List (String × JValue)) :
    stringifyIndent (.obj (p :: (ps ++ [(k, .num lit)])))
      = stringifyIndent (.obj (p :: (ps ++ [(k, .null)]))) := by
  unfold stringifyIndent
  simp only [printVal]
  rw [printMembers_numnull 1 k lit h p ps]

theorem getConfigText_of_parse (s : String) (v : JValue)
    (h : parseJson s = some v) : getConfigText s = getConfigFromParsed v := by
  unfold getConfigText
  rw [h]

set_option maxRecDepth 4000 in
theorem numFinite_1e999 : numFinite "1e999" = false := by decide

set_option maxRecDepth 4000 in
/-- C6 counterexample: the unrestricted round-trip of the original claim
fails.  The document \x7b"foo":1e999\x7d resolves to a Config carrying the
overflowed number (Infinity at runtime), but JSON.stringify writes that
value back as null, so re-resolving the text saveConfig writes returns a
Config whose foo field is null: not the Config the first resolution
produced. -/
theorem spec_c6_counterexample :
    ∃ log log2,
      getConfigText "\x7b\"foo\":1e999\x7d"
        = .ok (.obj (defaultConfig ++ [("foo", JValue.num "1e999")])) log
      ∧ getConfigText (saveConfigText
            (.obj (defaultConfig ++ [("foo", JValue.num "1e999")])))
          = .ok (.obj (defaultConfig ++ [("foo", JValue.null)])) log2
      ∧ JValue.obj (defaultConfig ++ [("foo", JValue.null)])
        ≠ JValue.obj (defaultConfig ++ [("foo", JValue.num "1e999")]) := by
  refine ⟨[.logWarning binaryNameWarning], [], rfl, ?_, ?_⟩
  · have hd : ∀ x : String × JValue, defaultConfig ++ [x]
        = ("name", JValue.str "Unknown gluon build") :: (defaultConfig.tail ++ [x]) := by
      intro x
      rfl
    have hs : saveConfigText (.obj (defaultConfig ++ [("foo", JValue.num "1e999")]))
        = saveConfigText (.obj (defaultConfig ++ [("foo", JValue.null)])) := by
      rw [hd, hd]
      exact stringify_overflow_last "foo" "1e999" numFinite_1e999 _ _
    rw [hs]
    have hwf : Wf (.obj (defaultConfig ++ [("foo", JValue.null)])) := by
      refine Wf.obj _ (by simp [defaultConfig]) ?_
      intro q hq
      rcases List.mem_append.mp hq with hq | hq
      · exact wf_defaultConfig q hq
      · rw [List.mem_singleton.mp hq]
        exact Wf.null
    have hnf : numFree (.obj (defaultConfig ++ [("foo", JValue.null)])) = true := by
      simp [numFree, numFreeList, numFreeFields, defaultConfig, defaultLicenseConfig]
    rw [getConfigText_of_parse (saveConfigText (.obj (defaultConfig
        ++ [("foo", JValue.null)]))) _ (parseJson_stringify _ hwf hnf)]
    rfl
  · intro h
    have h2 := congrArg
      (fun v => match v with
        | JValue.obj fs => lookupKey fs "foo"
        | _ => none) h
    have h3 : (some JValue.null : Option JValue) = some (JValue.num "1e999") := h2
    injection h3 with h4
    exact JValue.noConfusion h4

/-- C6: corrected round-trip — on a resolution whose Config carries no
number value, serialising the Config the way saveConfig does and
re-resolving the serialised text returns the very same Config.  The
number-free restriction is necessary: JSON.stringify re-serialises a
number from its double value, so an overflowed lexeme such as 1e999
(Infinity at runtime) is written back as null and the round-trip changes
the Config, as the counterexample shows. -/
theorem spec_c6_roundtrip (t : String) (cfg : JValue) (log : List Event)
    (h : getConfigText t = .ok cfg log) (hnf : numFree cfg = true) :
    ∃ log2, getConfigText (saveConfigText cfg) = .ok cfg log2 := by
  unfold getConfigText at h
  cases hpj : parseJson t with
  | none =>
    rw [hpj] at h
    exact Outcome.noConfusion h
  | some v =>
    rw [hpj] at h
    obtain ⟨hvn, hceq, hver, hprod, errs, hca, hlog⟩ :=
      getConfigFromParsed_ok_inv v cfg log h
    have hwcfg : Wf cfg := hceq ▸ mergedConfig_wf v (parseJson_wf t v hpj)
    obtain ⟨log2, hidem⟩ := getConfigFromParsed_idem v cfg log h
    refine ⟨log2, ?_⟩
    unfold getConfigText
    rw [show saveConfigText cfg = stringifyIndent cfg from rfl]
    simp only [parseJson_stringify cfg hwcfg hnf]
    exact hidem

theorem spec_c6_roundtrip_witness :
    getConfigText "\x7b\x7d" = .ok (.obj defaultConfig) [.logWarning binaryNameWarning]
    ∧ numFree (.obj defaultConfig) = true
    ∧ ∃ log2, getConfigText (saveConfigText (.obj defaultConfig))
        = .ok (.obj defaultConfig) log2 :=
  ⟨rfl, by simp [numFree, numFreeList, numFreeFields, defaultConfig, defaultLicenseConfig],
    spec_c6_roundtrip "\x7b\x7d" (.obj defaultConfig)
      [.logWarning binaryNameWarning] rfl
      (by simp [numFree, numFreeList, numFreeFields, defaultConfig, defaultLicenseConfig])⟩

end Gluon
